import Mathlib

/-!
Verification of the Sudoku board constraint engine (`SudokuSolver.js`).

The board is a 9×9 grid of naturals (0 = empty, 1–9 = filled), modelled as a
list of rows.  Mutating JavaScript methods are embedded as state-passing
functions; `Math.random()` draws are modelled by an explicit stream
`rng : ℕ → ℕ` together with a running index, each draw
`Math.floor(Math.random()*n)` becoming `rng idx % n`.  Unbounded loops and
recursion take explicit fuel and return `Option` / a failure flag where the
JavaScript would diverge or backtrack.

The repository carries two revisions of the solver class.  They differ only
in the difficulty lookup inside `generate`: the first revision indexes a
plain object literal (an unknown tag yields `undefined`, and
`removed < undefined` is false), the second falls back to the medium count
with `|| DIFFICULTY_CONFIG.medium`.  Both are embedded (`generateV1`,
`generateV2`); everything else is shared.
-/

namespace Sudoku

abbrev Board := List (List ℕ)

/-- `board[r][c]`: JavaScript out-of-range access compares as a miss, modelled
by defaulting to 0. -/
def getCell (b : Board) (r c : ℕ) : ℕ := (b.getD r []).getD c 0

/-- `board[r][c] = v`; out-of-range writes are no-ops. -/
def setCell (b : Board) (r c v : ℕ) : Board := b.set r ((b.getD r []).set c v)

/-- `createEmptyBoard()`: 9×9 grid of zeros. -/
def createEmptyBoard : Board := List.replicate 9 (List.replicate 9 0)

/-- Well-formed board: 9 rows of 9 cells, values in `[0,9]` (the data model's
range). -/
def WF (b : Board) : Prop :=
  b.length = 9 ∧ ∀ row ∈ b, row.length = 9 ∧ ∀ v ∈ row, v ≤ 9

instance : DecidablePred WF := fun b => by
  unfold WF; infer_instance

def countEmpty (b : Board) : ℕ := (b.map fun row => row.countP (fun v => v == 0)).sum

def countNonzero (b : Board) : ℕ := (b.map fun row => row.countP (fun v => !(v == 0))).sum

/-- `isValid(board, row, col, num)`: the three scans of the source, each
excluding the queried position itself.  Early returns become conjunction. -/
def isValid (board : Board) (row col num : ℕ) : Bool :=
  ((List.range 9).all fun x => !(x != col && getCell board row x == num)) &&
  (((List.range 9).all fun x => !(x != row && getCell board x col == num)) &&
  ((List.range 3).all fun i => (List.range 3).all fun j =>
      !((row / 3 * 3 + i != row || col / 3 * 3 + j != col) &&
        getCell board (row / 3 * 3 + i) (col / 3 * 3 + j) == num)))

/-- Row-major scan from flat position `k` with `rem` cells left to inspect. -/
def findEmptyGo (b : Board) : ℕ → ℕ → Option (ℕ × ℕ)
  | _, 0 => none
  | k, rem+1 =>
    if getCell b (k / 9) (k % 9) == 0 then some (k / 9, k % 9)
    else findEmptyGo b (k+1) rem

/-- `findEmpty(board)`: first cell `(i, j)` with `board[i][j] === 0`, scanning
rows then columns; `null` becomes `none`. -/
def findEmpty (b : Board) : Option (ℕ × ℕ) := findEmptyGo b 0 81

/-- All 81 cell addresses in row-major order (the double loop of the source). -/
def allCells : List (ℕ × ℕ) :=
  ((List.range 9).map fun i => (List.range 9).map fun j => (i, j)).join

/-- `findAllEmpty(board)`: all empty cell addresses in row-major order. -/
def findAllEmpty (b : Board) : List (ℕ × ℕ) :=
  ((List.range 9).map fun i =>
    ((List.range 9).filter fun j => getCell b i j == 0).map fun j => (i, j)).join

/-! ### The deterministic backtracking solver -/

def nums1to9 : List ℕ := [1, 2, 3, 4, 5, 6, 7, 8, 9]

/-- The `for (num = 1; num <= 9; num++)` loop body of `solve`, over the list
of candidates still to try.  On a failed recursive call the source resets
`board[row][col] = 0` before trying the next value. -/
def tryNums (rec : Board → Bool × Board) (r c : ℕ) : List ℕ → Board → Bool × Board
  | [], b => (false, b)
  | n :: rest, b =>
    if isValid b r c n then
      if (rec (setCell b r c n)).1 then rec (setCell b r c n)
      else tryNums rec r c rest (setCell (rec (setCell b r c n)).2 r c 0)
    else tryNums rec r c rest b

/-- `solve(board)` with explicit fuel; returns the success flag and the board
as left by the call (mutation made explicit). -/
def solveAux : ℕ → Board → Bool × Board
  | 0, b => (false, b)
  | fuel+1, b =>
    match findEmpty b with
    | none => (true, b)
    | some rc => tryNums (solveAux fuel) rc.1 rc.2 nums1to9 b

/-- `solve(board)`.  Fuel 82 exceeds the maximal recursion depth on any 9×9
board (at most `countEmpty b + 1 ≤ 82` nested calls). -/
def solve (b : Board) : Bool × Board := solveAux 82 b

/-! ### Whole-board validation and conflict detection -/

/-- The temporarily-zeroed self-check `validateBoard` and `detectConflicts`
run on one cell. -/
def cellOK (b : Board) (i j : ℕ) : Bool :=
  (getCell b i j == 0) || isValid (setCell b i j 0) i j (getCell b i j)

/-- `validateBoard(board)` over the remaining cell list: zero the cell, check
`isValid`, restore, early-return `false` on a conflict.  The returned board
makes the in-place mutation explicit. -/
def validateBoardGo : Board → List (ℕ × ℕ) → Bool × Board
  | b, [] => (true, b)
  | b, ij :: rest =>
    if getCell b ij.1 ij.2 ≠ 0 then
      if !(isValid (setCell b ij.1 ij.2 0) ij.1 ij.2 (getCell b ij.1 ij.2)) then
        (false, setCell (setCell b ij.1 ij.2 0) ij.1 ij.2 (getCell b ij.1 ij.2))
      else validateBoardGo
        (setCell (setCell b ij.1 ij.2 0) ij.1 ij.2 (getCell b ij.1 ij.2)) rest
    else validateBoardGo b rest

def validateBoard (b : Board) : Bool := (validateBoardGo b allCells).1

/-- The `` `${i}-${j}` `` key used by the conflict set. -/
def conflictKey (i j : ℕ) : String := toString i ++ "-" ++ toString j

/-- `detectConflicts(board)`: JavaScript `Set` insertion order is modelled by
an append-only list (each cell is visited once, so no duplicates arise). -/
def detectConflictsGo : Board → List String → List (ℕ × ℕ) → Board × List String
  | b, acc, [] => (b, acc)
  | b, acc, ij :: rest =>
    if getCell b ij.1 ij.2 ≠ 0 then
      detectConflictsGo
        (setCell (setCell b ij.1 ij.2 0) ij.1 ij.2 (getCell b ij.1 ij.2))
        (if !(isValid (setCell b ij.1 ij.2 0) ij.1 ij.2 (getCell b ij.1 ij.2))
         then acc ++ [conflictKey ij.1 ij.2] else acc)
        rest
    else detectConflictsGo b acc rest

def detectConflicts (b : Board) : Board × List String := detectConflictsGo b [] allCells

/-! ### The randomized solver and the generator -/

/-- Simultaneous swap `[arr[a], arr[b]] = [arr[b], arr[a]]`. -/
def swapL (l : List ℕ) (a b : ℕ) : List ℕ := (l.set a (l.getD b 0)).set b (l.getD a 0)

/-- Fisher–Yates loop of `shuffleArray`, from current index `i` down to 1;
returns the shuffled list and the advanced draw index. -/
def shuffleGo (rng : ℕ → ℕ) : ℕ → List ℕ → ℕ → List ℕ × ℕ
  | 0, arr, idx => (arr, idx)
  | i+1, arr, idx => shuffleGo rng i (swapL arr (i+1) (rng idx % (i+2))) (idx+1)

/-- `shuffleArray(array)` (copy, then Fisher–Yates). -/
def shuffleArray (rng : ℕ → ℕ) (arr : List ℕ) (idx : ℕ) : List ℕ × ℕ :=
  shuffleGo rng (arr.length - 1) arr idx

/-- Candidate loop of `solveRandomly`, threading the draw index. -/
def tryNumsR (rec : Board → ℕ → Bool × Board × ℕ) (r c : ℕ) :
    List ℕ → Board → ℕ → Bool × Board × ℕ
  | [], b, idx => (false, b, idx)
  | n :: rest, b, idx =>
    if isValid b r c n then
      if (rec (setCell b r c n) idx).1 then rec (setCell b r c n) idx
      else tryNumsR rec r c rest (setCell (rec (setCell b r c n) idx).2.1 r c 0)
             (rec (setCell b r c n) idx).2.2
    else tryNumsR rec r c rest b idx

/-- `solveRandomly(board)`: same control flow as `solve`, but each visited
cell draws a fresh shuffled candidate order. -/
def solveRandomlyAux (rng : ℕ → ℕ) : ℕ → Board → ℕ → Bool × Board × ℕ
  | 0, b, idx => (false, b, idx)
  | fuel+1, b, idx =>
    match findEmpty b with
    | none => (true, b, idx)
    | some rc =>
      tryNumsR (solveRandomlyAux rng fuel) rc.1 rc.2
        (shuffleArray rng nums1to9 idx).1 b (shuffleArray rng nums1to9 idx).2

/-- Result of a JavaScript property read on the difficulty table object
literal: an own key holds a number; a key naming an `Object.prototype`
member yields the inherited value (a function, or `Object.prototype` itself
for `"__proto__"` — in every case truthy and non-numeric); any other key
yields `undefined`. -/
inductive JsLookup where
  | num : ℕ → JsLookup
  | inherited : JsLookup
  | missing : JsLookup
deriving DecidableEq

/-- The string keys an object literal inherits from `Object.prototype`. -/
def protoKeys : List String :=
  ["constructor", "hasOwnProperty", "isPrototypeOf", "propertyIsEnumerable",
   "toLocaleString", "toString", "valueOf", "__proto__", "__defineGetter__",
   "__defineSetter__", "__lookupGetter__", "__lookupSetter__"]

/-- The difficulty policy table `{easy: 35, medium: 45, hard: 55}` indexed
with an arbitrary string, prototype chain included. -/
def difficultyLookup (d : String) : JsLookup :=
  if d = "easy" then .num 35
  else if d = "medium" then .num 45
  else if d = "hard" then .num 55
  else if d ∈ protoKeys then .inherited
  else .missing

/-- JavaScript `removed < cellsToRemove`: a numeric right side compares as
usual; `undefined` gives `NaN`, and an inherited function/object coerces via
`ToPrimitive`/`ToNumber` to `NaN` as well — either way the comparison is
false. -/
def jsLt (a : ℕ) : JsLookup → Bool
  | .num n => decide (a < n)
  | .inherited => false
  | .missing => false

/-- JavaScript `x || DIFFICULTY_CONFIG.medium`: the numeric table values and
the inherited prototype values are all truthy, so only `undefined` falls
back to 45. -/
def jsOrMedium : JsLookup → JsLookup
  | .num n => .num n
  | .inherited => .inherited
  | .missing => .num 45

/-- The removal loop of `generate`: sample a random cell, zero it if nonzero,
until `removed < cellsToRemove` fails.  `none` models non-termination within
the given fuel. -/
def removeLoop (rng : ℕ → ℕ) (target : JsLookup) :
    ℕ → Board → ℕ → ℕ → Option (Board × ℕ)
  | 0, b, idx, removed =>
    if jsLt removed target then none else some (b, idx)
  | f+1, b, idx, removed =>
    if jsLt removed target then
      if getCell b (rng idx % 9) (rng (idx+1) % 9) ≠ 0 then
        removeLoop rng target f
          (setCell b (rng idx % 9) (rng (idx+1) % 9) 0) (idx+2) (removed+1)
      else removeLoop rng target f b (idx+2) removed
    else some (b, idx)

/-- The solver object's stored boards (`this.board`, `this.initialBoard`). -/
structure SolverState where
  board : Board
  initialBoard : Board
deriving DecidableEq

/-- `generate(difficulty)`, first revision: plain table lookup, so an unknown
difficulty gives an `undefined` (or inherited) removal count.  Returns the
stored state and the returned board. -/
def generateV1 (rng : ℕ → ℕ) (idx fuel : ℕ) (difficulty : String) :
    Option (SolverState × Board) :=
  match removeLoop rng (difficultyLookup difficulty) fuel
      (solveRandomlyAux rng fuel createEmptyBoard idx).2.1
      (solveRandomlyAux rng fuel createEmptyBoard idx).2.2 0 with
  | none => none
  | some p => some (⟨p.1, p.1⟩, p.1)

/-- `generate(difficulty)`, second revision: `DIFFICULTY_CONFIG[difficulty]
|| DIFFICULTY_CONFIG.medium`. -/
def generateV2 (rng : ℕ → ℕ) (idx fuel : ℕ) (difficulty : String) :
    Option (SolverState × Board) :=
  match removeLoop rng (jsOrMedium (difficultyLookup difficulty)) fuel
      (solveRandomlyAux rng fuel createEmptyBoard idx).2.1
      (solveRandomlyAux rng fuel createEmptyBoard idx).2.2 0 with
  | none => none
  | some p => some (⟨p.1, p.1⟩, p.1)

/-! ### Hints -/

/-- `copyBoard(board)`: `board.map(row => [...row])`. -/
def copyBoard (b : Board) : Board := b.map fun row => row.map fun x => x

/-- `getHint(board)`: pick a random empty cell, solve a copy, read off that
cell's value. -/
def getHint (rng : ℕ → ℕ) (idx : ℕ) (b : Board) : Option (ℕ × ℕ × ℕ) :=
  if (findAllEmpty b).length = 0 then none
  else
    if (solve (copyBoard b)).1 then
      some (((findAllEmpty b).getD (rng idx % (findAllEmpty b).length) (0, 0)).1,
        ((findAllEmpty b).getD (rng idx % (findAllEmpty b).length) (0, 0)).2,
        getCell (solve (copyBoard b)).2
          ((findAllEmpty b).getD (rng idx % (findAllEmpty b).length) (0, 0)).1
          ((findAllEmpty b).getD (rng idx % (findAllEmpty b).length) (0, 0)).2)
    else none

/-! ### Specification-side predicates -/

/-- `C` agrees with `b` on every filled cell of `b`. -/
def Extends (b C : Board) : Prop :=
  ∀ r, r < 9 → ∀ c, c < 9 → getCell b r c ≠ 0 → getCell C r c = getCell b r c

/-- No empty cells. -/
def Full (b : Board) : Prop := ∀ r, r < 9 → ∀ c, c < 9 → getCell b r c ≠ 0

/-- Every filled cell passes the zero-and-recheck self-test (the pure content
of `validateBoard`). -/
def noConf (b : Board) : Prop :=
  ∀ i, i < 9 → ∀ j, j < 9 → getCell b i j ≠ 0 →
    isValid (setCell b i j 0) i j (getCell b i j) = true

/-- `C` is a legal completion of `b`: a well-formed full conflict-free board
extending `b`'s filled cells. -/
def Solves (C b : Board) : Prop :=
  WF C ∧ Extends b C ∧ Full C ∧ validateBoard C = true

instance (b C : Board) : Decidable (Extends b C) := by unfold Extends; infer_instance

instance (b : Board) : Decidable (Full b) := by unfold Full; infer_instance

instance (b : Board) : Decidable (noConf b) := by unfold noConf; infer_instance

instance (C b : Board) : Decidable (Solves C b) := by unfold Solves; infer_instance

/-! ### Concrete inputs used by witnesses and counterexamples -/

/-- Value of the classic shifted-rows solved grid at `(r, c)`. -/
def canonicalValue (r c : ℕ) : ℕ := (3 * (r % 3) + r / 3 + c) % 9 + 1

/-- A concrete fully solved board. -/
def canonicalBoard : Board :=
  (List.range 9).map fun r => (List.range 9).map fun c => canonicalValue r c

/-- A random stream that drives `solveRandomly` from the empty board straight
to `canonicalBoard` (each cell's shuffle puts the canonical value first) and
then lets the removal loop hit the cells in row-major order. -/
def wrng (n : ℕ) : ℕ :=
  if n < 648 then
    if 8 - n % 8 = canonicalValue (n / 8 / 9) (n / 8 % 9) - 1 then 0 else 8 - n % 8
  else
    if (n - 648) % 2 = 0 then (n - 648) / 2 / 9 else (n - 648) / 2 % 9

/-- The puzzle `generateV1 wrng 0 100` produces for `"easy"`: the canonical
board with its first 35 cells (row-major) blanked. -/
def easyPuzzle : Board :=
  (List.range 9).map fun r => (List.range 9).map fun c =>
    if 9 * r + c < 35 then 0 else canonicalValue r c

/-- Same for `"medium"` (45 cells blanked). -/
def mediumPuzzle : Board :=
  (List.range 9).map fun r => (List.range 9).map fun c =>
    if 9 * r + c < 45 then 0 else canonicalValue r c

/-- Same for `"hard"` (55 cells blanked). -/
def hardPuzzle : Board :=
  (List.range 9).map fun r => (List.range 9).map fun c =>
    if 9 * r + c < 55 then 0 else canonicalValue r c

/-- The canonical board with one cell blanked: a solvable puzzle. -/
def nearlyFullBoard : Board := setCell canonicalBoard 8 8 0

/-- A full board with a row conflict (cells (0,0) and (0,1) both hold 2):
no legal completion exists, yet `findEmpty` is `none`. -/
def badFullBoard : Board := setCell canonicalBoard 0 0 2

/-- The conflicted board with one empty cell at (8,8): still no legal
completion, but the solver happily fills (8,8). -/
def badHintBoard : Board := setCell (setCell canonicalBoard 0 0 2) 8 8 0

/-- A degenerate stream for cheap witnesses. -/
def zrng (_ : ℕ) : ℕ := 0

/-- Conflict-free but unsolvable: cell (0,8) needs a 9 for its row, but
column 8 already holds a 9 at (1,8). -/
def unsolvableBoard : Board :=
  [[1, 2, 3, 4, 5, 6, 7, 8, 0], [0, 0, 0, 0, 0, 0, 0, 0, 9]] ++
    List.replicate 7 (List.replicate 9 0)

end Sudoku

/-! ## Theorems -/

namespace Sudoku

/-! ### List-level lemmas about `getD` and `set` -/

theorem getD_set_self {α : Type} : ∀ (l : List α) (i : ℕ) (v d : α), i < l.length →
    (l.set i v).getD i d = v
  | _ :: _, 0, _, _, _ => rfl
  | _ :: xs, i+1, v, d, h => getD_set_self xs i v d (Nat.lt_of_succ_lt_succ h)

theorem getD_set_ne {α : Type} : ∀ (l : List α) (i j : ℕ) (v d : α), i ≠ j →
    (l.set i v).getD j d = l.getD j d
  | [], _, _, _, _, _ => rfl
  | _ :: _, 0, 0, _, _, h => absurd rfl h
  | _ :: _, 0, _+1, _, _, _ => rfl
  | _ :: _, _+1, 0, _, _, _ => rfl
  | _ :: xs, i+1, j+1, v, d, h =>
    getD_set_ne xs i j v d (fun hij => h (by omega))

theorem set_getD_self {α : Type} : ∀ (l : List α) (i : ℕ) (d : α), i < l.length →
    l.set i (l.getD i d) = l
  | _ :: _, 0, _, _ => rfl
  | x :: xs, i+1, d, h => by
    simp only [List.getD_cons_succ, List.set_cons_succ]
    exact congrArg (x :: ·) (set_getD_self xs i d (Nat.lt_of_succ_lt_succ h))

theorem set_of_length_le {α : Type} : ∀ (l : List α) (i : ℕ) (v : α),
    l.length ≤ i → l.set i v = l
  | [], _, _, _ => rfl
  | _ :: _, 0, _, h => absurd h (by simp)
  | x :: xs, i+1, v, h => by
    simp only [List.set_cons_succ]
    exact congrArg (x :: ·) (set_of_length_le xs i v (by simpa using h))

theorem getD_of_length_le {α : Type} : ∀ (l : List α) (i : ℕ) (d : α),
    l.length ≤ i → l.getD i d = d
  | [], _, _, _ => rfl
  | _ :: _, 0, _, h => absurd h (by simp)
  | _ :: xs, i+1, d, h => getD_of_length_le xs i d (by simpa using h)

theorem set_set {α : Type} : ∀ (l : List α) (i : ℕ) (a b : α),
    (l.set i a).set i b = l.set i b
  | [], _, _, _ => rfl
  | _ :: _, 0, _, _ => rfl
  | x :: xs, i+1, a, b => congrArg (x :: ·) (set_set xs i a b)

theorem getD_eq_getElem {α : Type} : ∀ (l : List α) (i : ℕ) (d : α) (h : i < l.length),
    l.getD i d = l[i]
  | _ :: _, 0, _, _ => rfl
  | _ :: xs, i+1, d, h => getD_eq_getElem xs i d (Nat.lt_of_succ_lt_succ h)

/-! ### Cell-level lemmas -/

theorem cell_in_range_of_ne_zero (b : Board) (r c : ℕ) (h : getCell b r c ≠ 0) :
    r < b.length ∧ c < (b.getD r []).length := by
  unfold getCell at h
  constructor
  · by_contra hr
    rw [getD_of_length_le b r [] (Nat.le_of_not_lt hr)] at h
    exact h rfl
  · by_contra hc
    rw [getD_of_length_le _ c 0 (Nat.le_of_not_lt hc)] at h
    exact h rfl

theorem getCell_setCell_self (b : Board) (r c v : ℕ)
    (hr : r < b.length) (hc : c < (b.getD r []).length) :
    getCell (setCell b r c v) r c = v := by
  unfold getCell setCell
  rw [getD_set_self b r _ [] hr]
  exact getD_set_self _ c v 0 (by simpa using hc)

theorem getCell_setCell_ne (b : Board) (r c v r' c' : ℕ) (h : r ≠ r' ∨ c ≠ c') :
    getCell (setCell b r c v) r' c' = getCell b r' c' := by
  unfold getCell setCell
  by_cases hr : r = r'
  · subst hr
    have hc : c ≠ c' := h.resolve_left (fun hh => hh rfl)
    by_cases hlen : r < b.length
    · rw [getD_set_self b r _ [] hlen, getD_set_ne _ c c' v 0 hc]
    · rw [set_of_length_le b r _ (Nat.le_of_not_lt hlen)]
  · rw [getD_set_ne b r r' _ [] hr]

theorem setCell_setCell (b : Board) (r c x y : ℕ) :
    setCell (setCell b r c x) r c y = setCell b r c y := by
  unfold setCell
  by_cases hr : r < b.length
  · rw [getD_set_self b r _ [] hr, set_set, set_set]
  · rw [set_of_length_le b r _ (Nat.le_of_not_lt hr)]

theorem setCell_same_value (b : Board) (r c : ℕ) :
    setCell b r c (getCell b r c) = b := by
  unfold setCell getCell
  by_cases hr : r < b.length
  · by_cases hc : c < (b.getD r []).length
    · rw [set_getD_self _ c 0 hc]
      exact set_getD_self b r [] hr
    · rw [getD_of_length_le _ c 0 (Nat.le_of_not_lt hc),
        set_of_length_le _ c _ (Nat.le_of_not_lt hc)]
      exact set_getD_self b r [] hr
  · exact set_of_length_le b r _ (Nat.le_of_not_lt hr)

theorem setCell_zero_of_zero (b : Board) (r c : ℕ) (h : getCell b r c = 0) :
    setCell b r c 0 = b := by
  have := setCell_same_value b r c
  rwa [h] at this

theorem boardRestore (b : Board) (r c : ℕ) (h : getCell b r c ≠ 0) :
    setCell (setCell b r c 0) r c (getCell b r c) = b := by
  rw [setCell_setCell]
  exact setCell_same_value b r c

/-! ### Well-formedness -/

theorem WF_row_mem (b : Board) (r : ℕ) (hr : r < b.length) : b.getD r [] ∈ b := by
  rw [getD_eq_getElem b r [] hr]
  exact List.getElem_mem hr

theorem WF_length (b : Board) (h : WF b) : b.length = 9 := h.1

theorem WF_row_len (b : Board) (h : WF b) (r : ℕ) (hr : r < 9) :
    (b.getD r []).length = 9 :=
  (h.2 _ (WF_row_mem b r (h.1 ▸ hr))).1

theorem WF_cell_le (b : Board) (h : WF b) (r c : ℕ) (hr : r < 9) (hc : c < 9) :
    getCell b r c ≤ 9 := by
  have hrl : r < b.length := h.1 ▸ hr
  have hcl : c < (b.getD r []).length := by rw [WF_row_len b h r hr]; exact hc
  have hmem : getCell b r c ∈ b.getD r [] := by
    unfold getCell
    rw [getD_eq_getElem _ c 0 hcl]
    exact List.getElem_mem hcl
  exact (h.2 _ (WF_row_mem b r hrl)).2 _ hmem

theorem length_setCell (b : Board) (r c v : ℕ) : (setCell b r c v).length = b.length :=
  List.length_set b r _

theorem WF_setCell (b : Board) (h : WF b) (r c v : ℕ) (hv : v ≤ 9) :
    WF (setCell b r c v) := by
  by_cases hr : r < b.length
  · refine ⟨by rw [length_setCell]; exact h.1, ?_⟩
    intro row hrow
    unfold setCell at hrow
    rcases List.mem_or_eq_of_mem_set hrow with hmem | heq
    · exact h.2 _ hmem
    · subst heq
      have hsrc := h.2 _ (WF_row_mem b r hr)
      refine ⟨by rw [List.length_set]; exact hsrc.1, ?_⟩
      intro x hx
      rcases List.mem_or_eq_of_mem_set hx with hmem | heq'
      · exact hsrc.2 _ hmem
      · subst heq'; exact hv
  · unfold setCell
    rw [set_of_length_le b r _ (Nat.le_of_not_lt hr)]
    exact h

theorem WF_getCell_in_range (b : Board) (h : WF b) (r c : ℕ) (hr : r < 9) (hc : c < 9) :
    r < b.length ∧ c < (b.getD r []).length := by
  refine ⟨h.1 ▸ hr, ?_⟩
  rw [WF_row_len b h r hr]; exact hc

/-! ### Counting -/

theorem countP_set (p : ℕ → Bool) : ∀ (l : List ℕ) (i v : ℕ), i < l.length →
    (l.set i v).countP p + (cond (p (l.getD i 0)) 1 0)
      = l.countP p + (cond (p v) 1 0)
  | x :: xs, 0, v, _ => by
    simp only [List.set_cons_zero, List.countP_cons, List.getD_cons_zero]
    cases p x <;> cases p v <;> simp <;> omega
  | x :: xs, i+1, v, h => by
    simp only [List.set_cons_succ, List.countP_cons, List.getD_cons_succ]
    have := countP_set p xs i v (Nat.lt_of_succ_lt_succ h)
    omega

theorem sum_map_set {α : Type} (f : α → ℕ) :
    ∀ (l : List α) (i : ℕ) (a d : α), i < l.length →
    ((l.set i a).map f).sum + f (l.getD i d) = (l.map f).sum + f a
  | x :: xs, 0, a, d, _ => by simp; omega
  | x :: xs, i+1, a, d, h => by
    simp only [List.set_cons_succ, List.map_cons, List.sum_cons, List.getD_cons_succ]
    have := sum_map_set f xs i a d (Nat.lt_of_succ_lt_succ h)
    omega

theorem countEmpty_place (b : Board) (r c v : ℕ)
    (h0 : getCell b r c = 0) (hv : v ≠ 0)
    (hr : r < b.length) (hc : c < (b.getD r []).length) :
    countEmpty (setCell b r c v) + 1 = countEmpty b := by
  unfold countEmpty setCell
  have hsum := sum_map_set (fun row => row.countP (fun x => x == 0))
    b r ((b.getD r []).set c v) [] hr
  have hcp := countP_set (fun x => x == 0) (b.getD r []) c v hc
  unfold getCell at h0
  rw [h0] at hcp
  have hv' : (v == 0) = false := by simpa using hv
  simp only [beq_self_eq_true, cond_true, hv', cond_false] at hcp
  beta_reduce at hsum
  omega

theorem countNonzero_remove (b : Board) (r c : ℕ) (h : getCell b r c ≠ 0) :
    countNonzero (setCell b r c 0) + 1 = countNonzero b := by
  obtain ⟨hr, hc⟩ := cell_in_range_of_ne_zero b r c h
  unfold countNonzero setCell
  have hsum := sum_map_set (fun row => row.countP (fun x => !(x == 0)))
    b r ((b.getD r []).set c 0) [] hr
  have hcp := countP_set (fun x => !(x == 0)) (b.getD r []) c 0 hc
  unfold getCell at h
  have h' : ((b.getD r []).getD c 0 == 0) = false := by simpa using h
  simp only [h', Bool.not_false, cond_true, beq_self_eq_true, Bool.not_true, cond_false] at hcp
  beta_reduce at hsum
  omega

/-! ### `isValid` characterization -/

theorem isValid_iff (b : Board) (row col num : ℕ) :
    isValid b row col num = true ↔
      ((∀ x, x < 9 → x ≠ col → getCell b row x ≠ num) ∧
       (∀ x, x < 9 → x ≠ row → getCell b x col ≠ num) ∧
       (∀ i, i < 3 → ∀ j, j < 3 →
          ¬(row / 3 * 3 + i = row ∧ col / 3 * 3 + j = col) →
          getCell b (row / 3 * 3 + i) (col / 3 * 3 + j) ≠ num)) := by
  unfold isValid
  simp only [Bool.and_eq_true, List.all_eq_true, List.mem_range,
    Bool.not_eq_true', Bool.and_eq_false_iff, bne_eq_false_iff_eq, beq_eq_false_iff_ne,
    Bool.or_eq_false_iff]
  constructor
  · rintro ⟨h1, h2, h3⟩
    refine ⟨?_, ?_, ?_⟩
    · intro x hx hne
      rcases h1 x hx with h | h
      · exact absurd h hne
      · exact h
    · intro x hx hne
      rcases h2 x hx with h | h
      · exact absurd h hne
      · exact h
    · intro i hi j hj hne
      rcases h3 i hi j hj with h | h
      · exact absurd h hne
      · exact h
  · rintro ⟨h1, h2, h3⟩
    refine ⟨?_, ?_, ?_⟩
    · intro x hx
      by_cases hne : x = col
      · exact Or.inl hne
      · exact Or.inr (h1 x hx hne)
    · intro x hx
      by_cases hne : x = row
      · exact Or.inl hne
      · exact Or.inr (h2 x hx hne)
    · intro i hi j hj
      by_cases hne : row / 3 * 3 + i = row ∧ col / 3 * 3 + j = col
      · exact Or.inl hne
      · exact Or.inr (h3 i hi j hj hne)

theorem isValid_eq_false_iff (b : Board) (row col num : ℕ) :
    isValid b row col num = false ↔
      ((∃ x, x < 9 ∧ x ≠ col ∧ getCell b row x = num) ∨
       (∃ x, x < 9 ∧ x ≠ row ∧ getCell b x col = num) ∨
       (∃ i, i < 3 ∧ ∃ j, j < 3 ∧
          ¬(row / 3 * 3 + i = row ∧ col / 3 * 3 + j = col) ∧
          getCell b (row / 3 * 3 + i) (col / 3 * 3 + j) = num)) := by
  constructor
  · intro h
    by_cases h1 : ∀ x, x < 9 → x ≠ col → getCell b row x ≠ num
    · by_cases h2 : ∀ x, x < 9 → x ≠ row → getCell b x col ≠ num
      · right; right
        by_contra h3
        push_neg at h3
        have h3' : ∀ i, i < 3 → ∀ j, j < 3 →
            ¬(row / 3 * 3 + i = row ∧ col / 3 * 3 + j = col) →
            getCell b (row / 3 * 3 + i) (col / 3 * 3 + j) ≠ num :=
          fun i hi j hj hne => h3 i hi j hj (not_and.mp hne)
        have htrue : isValid b row col num = true :=
          (isValid_iff b row col num).mpr ⟨h1, h2, h3'⟩
        rw [h] at htrue
        exact Bool.false_ne_true htrue
      · push_neg at h2
        obtain ⟨x, hx, hne, hv⟩ := h2
        exact Or.inr (Or.inl ⟨x, hx, hne, hv⟩)
    · push_neg at h1
      obtain ⟨x, hx, hne, hv⟩ := h1
      exact Or.inl ⟨x, hx, hne, hv⟩
  · intro hex
    by_contra hne'
    have htrue : isValid b row col num = true := by
      cases hb : isValid b row col num
      · exact absurd hb hne'
      · rfl
    obtain ⟨hrow, hcol, hbox⟩ := (isValid_iff b row col num).mp htrue
    rcases hex with ⟨x, hx, hne, hv⟩ | ⟨x, hx, hne, hv⟩ | ⟨i, hi, j, hj, hne, hv⟩
    · exact hrow x hx hne hv
    · exact hcol x hx hne hv
    · exact hbox i hi j hj hne hv

/-- If `isValid` approves `num` at `(row,col)`, then no cell sharing a row,
column or box with `(row,col)` (other than `(row,col)` itself) holds `num`. -/
theorem isValid_peer (b : Board) (row col num : ℕ)
    (h : isValid b row col num = true) (i j : ℕ) (hi : i < 9) (hj : j < 9)
    (hne : ¬(i = row ∧ j = col))
    (hshare : i = row ∨ j = col ∨ (i / 3 = row / 3 ∧ j / 3 = col / 3)) :
    getCell b i j ≠ num := by
  rw [isValid_iff] at h
  obtain ⟨hrow, hcol, hbox⟩ := h
  rcases hshare with hr | hc | ⟨hbr, hbc⟩
  · subst hr
    have hjne : j ≠ col := fun hh => hne ⟨rfl, hh⟩
    exact hrow j hj hjne
  · subst hc
    have hine : i ≠ row := fun hh => hne ⟨hh, rfl⟩
    exact hcol i hi hine
  · have hri : row / 3 * 3 + i % 3 = i := by omega
    have hcj : col / 3 * 3 + j % 3 = j := by omega
    have := hbox (i % 3) (by omega) (j % 3) (by omega)
    rw [hri, hcj] at this
    exact this hne

/-! ### `findEmpty` characterization -/

theorem findEmptyGo_some (b : Board) : ∀ rem k r c, k + rem ≤ 81 →
    findEmptyGo b k rem = some (r, c) →
    r < 9 ∧ c < 9 ∧ getCell b r c = 0 := by
  intro rem
  induction rem with
  | zero => intro k r c _ h; exact absurd h (by simp [findEmptyGo])
  | succ n ih =>
    intro k r c hk h
    unfold findEmptyGo at h
    by_cases h0 : getCell b (k / 9) (k % 9) = 0
    · rw [if_pos (by simpa using h0)] at h
      injection h with h'
      have hr : r = k / 9 := (congrArg Prod.fst h').symm
      have hc : c = k % 9 := (congrArg Prod.snd h').symm
      subst hr; subst hc
      exact ⟨by omega, by omega, h0⟩
    · rw [if_neg (by simpa using h0)] at h
      exact ih (k+1) r c (by omega) h

theorem findEmptyGo_none (b : Board) : ∀ rem k, findEmptyGo b k rem = none →
    ∀ t, k ≤ t → t < k + rem → getCell b (t / 9) (t % 9) ≠ 0 := by
  intro rem
  induction rem with
  | zero => intro k _ t h1 h2; omega
  | succ n ih =>
    intro k h t ht1 ht2
    unfold findEmptyGo at h
    by_cases h0 : getCell b (k / 9) (k % 9) = 0
    · rw [if_pos (by simpa using h0)] at h
      exact Option.noConfusion h
    · rw [if_neg (by simpa using h0)] at h
      by_cases hkt : t = k
      · subst hkt; exact h0
      · exact ih (k+1) h t (by omega) (by omega)

theorem findEmpty_some_char (b : Board) (r c : ℕ) (h : findEmpty b = some (r, c)) :
    r < 9 ∧ c < 9 ∧ getCell b r c = 0 :=
  findEmptyGo_some b 81 0 r c (by omega) h

theorem findEmpty_none_char (b : Board) (h : findEmpty b = none) :
    ∀ r c, r < 9 → c < 9 → getCell b r c ≠ 0 := by
  intro r c hr hc
  have hgo := findEmptyGo_none b 81 0 h (9 * r + c) (by omega) (by omega)
  have hdiv : (9 * r + c) / 9 = r := by omega
  have hmod : (9 * r + c) % 9 = c := by omega
  rwa [hdiv, hmod] at hgo

/-! ### Cell enumeration characterizations -/

theorem mem_allCells (p : ℕ × ℕ) : p ∈ allCells ↔ p.1 < 9 ∧ p.2 < 9 := by
  cases p with
  | mk a b =>
    unfold allCells
    simp only [List.mem_join, List.mem_map, List.mem_range]
    constructor
    · rintro ⟨l, ⟨i, hi, rfl⟩, hp⟩
      obtain ⟨j, hj, hpj⟩ := List.mem_map.mp hp
      obtain ⟨rfl, rfl⟩ := Prod.mk.injEq .. ▸ hpj
      exact ⟨hi, List.mem_range.mp hj⟩
    · rintro ⟨ha, hb⟩
      exact ⟨(List.range 9).map fun j => (a, j), ⟨a, ha, rfl⟩,
        List.mem_map.mpr ⟨b, List.mem_range.mpr hb, rfl⟩⟩

theorem mem_findAllEmpty (b : Board) (p : ℕ × ℕ) :
    p ∈ findAllEmpty b ↔ p.1 < 9 ∧ p.2 < 9 ∧ getCell b p.1 p.2 = 0 := by
  cases p with
  | mk a c =>
    unfold findAllEmpty
    simp only [List.mem_join, List.mem_map, List.mem_range]
    constructor
    · rintro ⟨l, ⟨i, hi, rfl⟩, hp⟩
      obtain ⟨j, hj, hpj⟩ := List.mem_map.mp hp
      obtain ⟨hj9, hj0⟩ := List.mem_filter.mp hj
      obtain ⟨rfl, rfl⟩ := Prod.mk.injEq .. ▸ hpj
      exact ⟨hi, List.mem_range.mp hj9, by simpa using hj0⟩
    · rintro ⟨ha, hc, h0⟩
      refine ⟨((List.range 9).filter fun j => getCell b a j == 0).map fun j => (a, j),
        ⟨a, ha, rfl⟩, ?_⟩
      exact List.mem_map.mpr ⟨c,
        List.mem_filter.mpr ⟨List.mem_range.mpr hc, by simpa using h0⟩, rfl⟩

theorem findAllEmpty_eq_nil (b : Board) :
    findAllEmpty b = [] ↔ ∀ r c, r < 9 → c < 9 → getCell b r c ≠ 0 := by
  rw [List.eq_nil_iff_forall_not_mem]
  constructor
  · intro h r c hr hc h0
    exact h (r, c) ((mem_findAllEmpty b (r, c)).mpr ⟨hr, hc, h0⟩)
  · intro h p hp
    obtain ⟨h1, h2, h3⟩ := (mem_findAllEmpty b p).mp hp
    exact h p.1 p.2 h1 h2 h3

/-! ### Counting bridges -/

theorem sum_map_le_nine {α : Type} (f : α → ℕ) :
    ∀ l : List α, (∀ x ∈ l, f x ≤ 9) → (l.map f).sum ≤ 9 * l.length
  | [], _ => by simp
  | x :: xs, h => by
    simp only [List.map_cons, List.sum_cons, List.length_cons]
    have h1 := h x (by simp)
    have h2 := sum_map_le_nine f xs (fun y hy => h y (List.mem_cons_of_mem x hy))
    omega

theorem countEmpty_le_81 (b : Board) (h : WF b) : countEmpty b ≤ 81 := by
  unfold countEmpty
  have := sum_map_le_nine (fun row => row.countP (fun v => v == 0)) b
    (fun row hrow => le_trans (List.countP_le_length _) (le_of_eq (h.2 row hrow).1))
  rw [h.1] at this
  simpa using this

theorem countNonzero_eq_81 (b : Board) (hWF : WF b)
    (h : ∀ r c, r < 9 → c < 9 → getCell b r c ≠ 0) : countNonzero b = 81 := by
  unfold countNonzero
  have hrow : ∀ i, i < 9 → (b.getD i []).countP (fun v => !(v == 0)) = 9 := by
    intro i hi
    have hlen := WF_row_len b hWF i hi
    rw [← hlen]
    apply List.countP_eq_length.mpr
    intro a ha
    obtain ⟨j, hj, hji⟩ := List.mem_iff_getElem.mp ha
    have : getCell b i j ≠ 0 := h i j hi (hlen ▸ hj)
    unfold getCell at this
    rw [getD_eq_getElem _ j 0 hj, hji] at this
    simpa using this
  have hmap : ∀ x ∈ b.map (fun row => row.countP (fun v => !(v == 0))), x = 9 := by
    intro x hx
    obtain ⟨row, hrowmem, hfx⟩ := List.mem_map.mp hx
    obtain ⟨i, hilen, hrowi⟩ := List.mem_iff_getElem.mp hrowmem
    have hi9 : i < 9 := hWF.1 ▸ hilen
    have : b.getD i [] = row := by rw [getD_eq_getElem b i [] hilen, hrowi]
    rw [← hfx, ← this]
    exact hrow i hi9
  calc (b.map fun row => row.countP (fun v => !(v == 0))).sum
      = (b.map fun _ => 9).sum := by
        apply congrArg
        exact List.map_congr_left (fun row hrow => by
          have := hmap _ (List.mem_map.mpr ⟨row, hrow, rfl⟩)
          simpa using this)
    _ = 9 * b.length := by
        induction b with
        | nil => simp
        | cons x xs ih => simp [ih]; ring
    _ = 81 := by rw [hWF.1]

/-! ### Backtracking restores the board on failure -/

theorem tryNums_restore (rec : Board → Bool × Board)
    (hrec : ∀ bb, (rec bb).1 = false → (rec bb).2 = bb) (r c : ℕ) :
    ∀ (nums : List ℕ) (b : Board), getCell b r c = 0 →
    (tryNums rec r c nums b).1 = false → (tryNums rec r c nums b).2 = b := by
  intro nums
  induction nums with
  | nil => intro b _ _; rfl
  | cons n rest ih =>
    intro b h0 hf
    unfold tryNums at hf ⊢
    by_cases hv : isValid b r c n = true
    · rw [if_pos hv] at hf ⊢
      by_cases hp : (rec (setCell b r c n)).1 = true
      · rw [if_pos hp] at hf
        rw [hp] at hf
        exact absurd hf (by simp)
      · have hp' : (rec (setCell b r c n)).1 = false := by simpa using hp
        rw [if_neg hp] at hf ⊢
        rw [hrec _ hp', setCell_setCell, setCell_zero_of_zero b r c h0] at hf ⊢
        exact ih b h0 hf
    · rw [if_neg hv] at hf ⊢
      exact ih b h0 hf

theorem solveAux_restore : ∀ (fuel : ℕ) (b : Board),
    (solveAux fuel b).1 = false → (solveAux fuel b).2 = b := by
  intro fuel
  induction fuel with
  | zero => intro b _; rfl
  | succ n ih =>
    intro b hf
    unfold solveAux at hf ⊢
    cases hfe : findEmpty b with
    | none => rw [hfe] at hf
    | some rc =>
      rw [hfe] at hf
      have h0 := (findEmpty_some_char b rc.1 rc.2 (by rw [hfe])).2.2
      exact tryNums_restore (solveAux n) ih rc.1 rc.2 nums1to9 b h0 hf

/-! ### `Extends` -/

theorem Extends_refl (b : Board) : Extends b b := fun _ _ _ _ _ => rfl

theorem Extends_trans {a b c : Board} (h1 : Extends a b) (h2 : Extends b c) :
    Extends a c := by
  intro r hr cc hc h0
  have hb : getCell b r cc = getCell a r cc := h1 r hr cc hc h0
  have hbne : getCell b r cc ≠ 0 := by rw [hb]; exact h0
  rw [h2 r hr cc hc hbne, hb]

theorem Extends_setCell (b : Board) (r c num : ℕ) (h0 : getCell b r c = 0) :
    Extends b (setCell b r c num) := by
  intro i hi j hj hne
  have hne' : ¬(r = i ∧ c = j) := by
    rintro ⟨rfl, rfl⟩
    exact hne h0
  apply getCell_setCell_ne
  rcases not_and_or.mp hne' with h | h
  · exact Or.inl h
  · exact Or.inr h

/-! ### The zero-and-recheck test, expressed over the untouched board -/

theorem isValid_setZero_iff (b : Board) (i j w : ℕ) :
    isValid (setCell b i j 0) i j w = true ↔
      ((∀ x, x < 9 → x ≠ j → getCell b i x ≠ w) ∧
       (∀ x, x < 9 → x ≠ i → getCell b x j ≠ w) ∧
       (∀ a, a < 3 → ∀ d, d < 3 →
          ¬(i / 3 * 3 + a = i ∧ j / 3 * 3 + d = j) →
          getCell b (i / 3 * 3 + a) (j / 3 * 3 + d) ≠ w)) := by
  rw [isValid_iff]
  refine and_congr ?_ (and_congr ?_ ?_)
  · refine forall_congr' fun x => imp_congr_right fun _ => imp_congr_right fun hne => ?_
    rw [getCell_setCell_ne b i j 0 i x (Or.inr (fun hh => hne hh.symm))]
  · refine forall_congr' fun x => imp_congr_right fun _ => imp_congr_right fun hne => ?_
    rw [getCell_setCell_ne b i j 0 x j (Or.inl (fun hh => hne hh.symm))]
  · refine forall_congr' fun a => imp_congr_right fun _ =>
      forall_congr' fun d => imp_congr_right fun _ => imp_congr_right fun hne => ?_
    have hd : i ≠ i / 3 * 3 + a ∨ j ≠ j / 3 * 3 + d := by
      rcases not_and_or.mp hne with h | h
      · exact Or.inl (fun hh => h hh.symm)
      · exact Or.inr (fun hh => h hh.symm)
    rw [getCell_setCell_ne b i j 0 _ _ hd]

/-! ### Valid placements preserve conflict-freedom -/

theorem noConf_place (b : Board) (hWF : WF b) (r c num : ℕ) (hr : r < 9) (hc : c < 9)
    (h0 : getCell b r c = 0) (hnum : num ≠ 0)
    (hv : isValid b r c num = true) (hnc : noConf b) :
    noConf (setCell b r c num) := by
  intro i hi j hj hne0
  have hrange := WF_getCell_in_range b hWF r c hr hc
  by_cases hij : i = r ∧ j = c
  · have hget : getCell (setCell b r c num) i j = num := by
      rw [hij.1, hij.2]
      exact getCell_setCell_self b r c num hrange.1 hrange.2
    rw [hget, hij.1, hij.2, setCell_setCell, setCell_zero_of_zero b r c h0]
    exact hv
  · have hget : getCell (setCell b r c num) i j = getCell b i j := by
      apply getCell_setCell_ne
      rcases not_and_or.mp hij with h | h
      · exact Or.inl (fun hh => h hh.symm)
      · exact Or.inr (fun hh => h hh.symm)
    rw [hget] at hne0 ⊢
    rw [isValid_setZero_iff (setCell b r c num) i j (getCell b i j)]
    obtain ⟨hp1, hp2, hp3⟩ :=
      (isValid_setZero_iff b i j (getCell b i j)).mp (hnc i hi j hj hne0)
    refine ⟨?_, ?_, ?_⟩
    · intro x hx hxj
      by_cases hxrc : i = r ∧ x = c
      · have hval : getCell (setCell b r c num) i x = num := by
          rw [hxrc.1, hxrc.2]
          exact getCell_setCell_self b r c num hrange.1 hrange.2
        rw [hval]
        intro hEq
        exact isValid_peer b r c num hv i j hi hj hij (Or.inl hxrc.1) hEq.symm
      · have hval : getCell (setCell b r c num) i x = getCell b i x := by
          apply getCell_setCell_ne
          rcases not_and_or.mp hxrc with h | h
          · exact Or.inl (fun hh => h hh.symm)
          · exact Or.inr (fun hh => h hh.symm)
        rw [hval]
        exact hp1 x hx hxj
    · intro x hx hxi
      by_cases hxrc : x = r ∧ j = c
      · have hval : getCell (setCell b r c num) x j = num := by
          rw [hxrc.1, hxrc.2]
          exact getCell_setCell_self b r c num hrange.1 hrange.2
        rw [hval]
        intro hEq
        exact isValid_peer b r c num hv i j hi hj hij (Or.inr (Or.inl hxrc.2)) hEq.symm
      · have hval : getCell (setCell b r c num) x j = getCell b x j := by
          apply getCell_setCell_ne
          rcases not_and_or.mp hxrc with h | h
          · exact Or.inl (fun hh => h hh.symm)
          · exact Or.inr (fun hh => h hh.symm)
        rw [hval]
        exact hp2 x hx hxi
    · intro a ha d hd hnead
      by_cases hprc : i / 3 * 3 + a = r ∧ j / 3 * 3 + d = c
      · have hval : getCell (setCell b r c num) (i / 3 * 3 + a) (j / 3 * 3 + d) = num := by
          rw [hprc.1, hprc.2]
          exact getCell_setCell_self b r c num hrange.1 hrange.2
        rw [hval]
        intro hEq
        have hshare : i / 3 = r / 3 ∧ j / 3 = c / 3 := by
          constructor <;> omega
        exact isValid_peer b r c num hv i j hi hj hij
          (Or.inr (Or.inr hshare)) hEq.symm
      · have hval : getCell (setCell b r c num) (i / 3 * 3 + a) (j / 3 * 3 + d)
            = getCell b (i / 3 * 3 + a) (j / 3 * 3 + d) := by
          apply getCell_setCell_ne
          rcases not_and_or.mp hprc with h | h
          · exact Or.inl (fun hh => h hh.symm)
          · exact Or.inr (fun hh => h hh.symm)
        rw [hval]
        exact hp3 a ha d hd hnead

/-! ### `validateBoard` and `detectConflicts` as pure folds -/

theorem validateBoardGo_spec : ∀ (l : List (ℕ × ℕ)) (b : Board),
    validateBoardGo b l = ((l.all fun ij => cellOK b ij.1 ij.2), b) := by
  intro l
  induction l with
  | nil => intro b; rfl
  | cons ij rest ih =>
    intro b
    unfold validateBoardGo
    by_cases h0 : getCell b ij.1 ij.2 ≠ 0
    · rw [if_pos h0]
      rw [boardRestore b ij.1 ij.2 h0]
      by_cases hconf : isValid (setCell b ij.1 ij.2 0) ij.1 ij.2 (getCell b ij.1 ij.2) = true
      · rw [if_neg (by simp [hconf])]
        rw [ih b]
        have hok : cellOK b ij.1 ij.2 = true := by
          unfold cellOK
          rw [hconf]
          simp
        simp [List.all_cons, hok]
      · have hconf' : isValid (setCell b ij.1 ij.2 0) ij.1 ij.2 (getCell b ij.1 ij.2) = false := by
          simpa using hconf
        rw [if_pos (by simp [hconf'])]
        have hok : cellOK b ij.1 ij.2 = false := by
          unfold cellOK
          rw [hconf']
          simpa using h0
        simp [List.all_cons, hok]
    · rw [if_neg h0]
      rw [ih b]
      have hok : cellOK b ij.1 ij.2 = true := by
        unfold cellOK
        simp at h0
        simp [h0]
      simp [List.all_cons, hok]

theorem validateBoard_eq_all (b : Board) :
    validateBoard b = allCells.all fun ij => cellOK b ij.1 ij.2 := by
  unfold validateBoard
  rw [validateBoardGo_spec]

theorem validateBoard_iff_noConf (b : Board) : validateBoard b = true ↔ noConf b := by
  rw [validateBoard_eq_all, List.all_eq_true]
  constructor
  · intro h i hi j hj h0
    have := h (i, j) ((mem_allCells (i, j)).mpr ⟨hi, hj⟩)
    unfold cellOK at this
    rcases Bool.or_eq_true .. ▸ this with h' | h'
    · exact absurd (by simpa using h') h0
    · exact h'
  · intro h ij hmem
    obtain ⟨hi, hj⟩ := (mem_allCells ij).mp hmem
    unfold cellOK
    by_cases h0 : getCell b ij.1 ij.2 = 0
    · simp [h0]
    · simp [h ij.1 hi ij.2 hj h0]

theorem detectConflictsGo_spec : ∀ (l : List (ℕ × ℕ)) (b : Board) (acc : List String),
    detectConflictsGo b acc l =
      (b, acc ++ (l.filter fun ij => !(cellOK b ij.1 ij.2)).map
        fun ij => conflictKey ij.1 ij.2) := by
  intro l
  induction l with
  | nil => intro b acc; simp [detectConflictsGo]
  | cons ij rest ih =>
    intro b acc
    unfold detectConflictsGo
    by_cases h0 : getCell b ij.1 ij.2 ≠ 0
    · rw [if_pos h0]
      rw [boardRestore b ij.1 ij.2 h0]
      by_cases hconf : isValid (setCell b ij.1 ij.2 0) ij.1 ij.2 (getCell b ij.1 ij.2) = true
      · rw [if_neg (by simp [hconf])]
        rw [ih b acc]
        have hok : cellOK b ij.1 ij.2 = true := by
          unfold cellOK
          rw [hconf]
          simp
        simp [List.filter_cons, hok]
      · have hconf' : isValid (setCell b ij.1 ij.2 0) ij.1 ij.2 (getCell b ij.1 ij.2) = false := by
          simpa using hconf
        rw [if_pos (by simp [hconf'])]
        rw [ih b (acc ++ [conflictKey ij.1 ij.2])]
        have hok : cellOK b ij.1 ij.2 = false := by
          unfold cellOK
          rw [hconf']
          simpa using h0
        simp [List.filter_cons, hok]
    · rw [if_neg h0]
      rw [ih b acc]
      have hok : cellOK b ij.1 ij.2 = true := by
        unfold cellOK
        simp at h0
        simp [h0]
      simp [List.filter_cons, hok]

theorem detectConflicts_spec (b : Board) :
    detectConflicts b =
      (b, (allCells.filter fun ij => !(cellOK b ij.1 ij.2)).map
        fun ij => conflictKey ij.1 ij.2) := by
  unfold detectConflicts
  rw [detectConflictsGo_spec]
  simp

/-! ### Solver soundness: a successful run yields a full, conflict-free,
extending board -/

theorem tryNums_sound (rec : Board → Bool × Board)
    (hrec : ∀ bb, WF bb → noConf bb → (rec bb).1 = true →
      WF (rec bb).2 ∧ noConf (rec bb).2 ∧ Extends bb (rec bb).2 ∧
      findEmpty (rec bb).2 = none)
    (hrecr : ∀ bb, (rec bb).1 = false → (rec bb).2 = bb)
    (r c : ℕ) (hr : r < 9) (hc : c < 9) :
    ∀ nums b, (∀ n ∈ nums, n ≠ 0 ∧ n ≤ 9) → WF b → noConf b → getCell b r c = 0 →
    (tryNums rec r c nums b).1 = true →
    WF (tryNums rec r c nums b).2 ∧ noConf (tryNums rec r c nums b).2 ∧
    Extends b (tryNums rec r c nums b).2 ∧
    findEmpty (tryNums rec r c nums b).2 = none := by
  intro nums
  induction nums with
  | nil => intro b _ _ _ _ hf; exact absurd hf (by simp [tryNums])
  | cons n rest ih =>
    intro b hnums hWF hnc h0 hf
    have hn := hnums n (by simp)
    unfold tryNums at hf ⊢
    by_cases hv : isValid b r c n = true
    · rw [if_pos hv] at hf ⊢
      by_cases hp : (rec (setCell b r c n)).1 = true
      · rw [if_pos hp] at hf ⊢
        have hWF' := WF_setCell b hWF r c n hn.2
        have hnc' := noConf_place b hWF r c n hr hc h0 hn.1 hv hnc
        obtain ⟨w1, w2, w3, w4⟩ := hrec _ hWF' hnc' hp
        exact ⟨w1, w2, Extends_trans (Extends_setCell b r c n h0) w3, w4⟩
      · have hp' : (rec (setCell b r c n)).1 = false := by simpa using hp
        rw [if_neg hp] at hf ⊢
        rw [hrecr _ hp', setCell_setCell, setCell_zero_of_zero b r c h0] at hf ⊢
        exact ih b (fun m hm => hnums m (List.mem_cons_of_mem n hm)) hWF hnc h0 hf
    · rw [if_neg hv] at hf ⊢
      exact ih b (fun m hm => hnums m (List.mem_cons_of_mem n hm)) hWF hnc h0 hf

theorem solveAux_sound : ∀ fuel b, WF b → noConf b → (solveAux fuel b).1 = true →
    WF (solveAux fuel b).2 ∧ noConf (solveAux fuel b).2 ∧
    Extends b (solveAux fuel b).2 ∧ findEmpty (solveAux fuel b).2 = none := by
  intro fuel
  induction fuel with
  | zero => intro b _ _ hf; exact absurd hf (by simp [solveAux])
  | succ m ih =>
    intro b hWF hnc hf
    unfold solveAux at hf ⊢
    cases hfe : findEmpty b with
    | none =>
      rw [hfe] at hf
      exact ⟨hWF, hnc, Extends_refl b, hfe⟩
    | some rc =>
      rw [hfe] at hf
      obtain ⟨hr, hc, h0⟩ := findEmpty_some_char b rc.1 rc.2 (by rw [hfe])
      exact tryNums_sound (solveAux m) ih (solveAux_restore m) rc.1 rc.2 hr hc
        nums1to9 b (by decide) hWF hnc h0 hf

/-! ### Solver completeness: a legal completion guarantees success -/

theorem isValid_of_solves (b C : Board) (r c : ℕ) (hr : r < 9) (hc : c < 9)
    (hS : Solves C b) :
    isValid b r c (getCell C r c) = true := by
  obtain ⟨hWFC, hExt, hFull, hVal⟩ := hS
  have hnc := (validateBoard_iff_noConf C).mp hVal
  have hCne := hFull r hr c hc
  obtain ⟨hC1, hC2, hC3⟩ :=
    (isValid_setZero_iff C r c (getCell C r c)).mp (hnc r hr c hc hCne)
  rw [isValid_iff]
  refine ⟨?_, ?_, ?_⟩
  · intro x hx hne hEq
    have hbx : getCell b r x ≠ 0 := by rw [hEq]; exact hCne
    have hCx : getCell C r x = getCell C r c := by rw [hExt r hr x hx hbx, hEq]
    exact hC1 x hx hne hCx
  · intro x hx hne hEq
    have hbx : getCell b x c ≠ 0 := by rw [hEq]; exact hCne
    have hCx : getCell C x c = getCell C r c := by rw [hExt x hx c hc hbx, hEq]
    exact hC2 x hx hne hCx
  · intro i hi j hj hne hEq
    have hi9 : r / 3 * 3 + i < 9 := by omega
    have hj9 : c / 3 * 3 + j < 9 := by omega
    have hbx : getCell b (r / 3 * 3 + i) (c / 3 * 3 + j) ≠ 0 := by rw [hEq]; exact hCne
    have hCx : getCell C (r / 3 * 3 + i) (c / 3 * 3 + j) = getCell C r c := by
      rw [hExt _ hi9 _ hj9 hbx, hEq]
    exact hC3 i hi j hj hne hCx

theorem Extends_place_solution (b C : Board) (hWF : WF b) (r c : ℕ)
    (hr : r < 9) (hc : c < 9) (hExt : Extends b C) :
    Extends (setCell b r c (getCell C r c)) C := by
  intro i hi j hj hne
  have hrange := WF_getCell_in_range b hWF r c hr hc
  by_cases hij : i = r ∧ j = c
  · have hv : getCell (setCell b r c (getCell C r c)) i j = getCell C r c := by
      rw [hij.1, hij.2]
      exact getCell_setCell_self b r c _ hrange.1 hrange.2
    rw [hv, hij.1, hij.2]
  · have hv : getCell (setCell b r c (getCell C r c)) i j = getCell b i j := by
      apply getCell_setCell_ne
      rcases not_and_or.mp hij with h | h
      · exact Or.inl (fun hh => h hh.symm)
      · exact Or.inr (fun hh => h hh.symm)
    rw [hv] at hne ⊢
    exact hExt i hi j hj hne

theorem tryNums_complete (rec : Board → Bool × Board)
    (hrecr : ∀ bb, (rec bb).1 = false → (rec bb).2 = bb)
    (r c : ℕ) (b C : Board) (h0 : getCell b r c = 0)
    (hvalid : isValid b r c (getCell C r c) = true)
    (hrecC : (rec (setCell b r c (getCell C r c))).1 = true) :
    ∀ nums, getCell C r c ∈ nums → (tryNums rec r c nums b).1 = true := by
  intro nums
  induction nums with
  | nil => intro h; exact absurd h (List.not_mem_nil _)
  | cons n rest ih =>
    intro hmem
    unfold tryNums
    by_cases hv : isValid b r c n = true
    · rw [if_pos hv]
      by_cases hp : (rec (setCell b r c n)).1 = true
      · rw [if_pos hp]; exact hp
      · have hp' : (rec (setCell b r c n)).1 = false := by simpa using hp
        rw [if_neg hp]
        by_cases hnw : n = getCell C r c
        · rw [hnw] at hp'
          rw [hp'] at hrecC
          exact absurd hrecC (by simp)
        · rw [hrecr _ hp', setCell_setCell, setCell_zero_of_zero b r c h0]
          rcases List.mem_cons.mp hmem with hh | hh
          · exact absurd hh.symm hnw
          · exact ih hh
    · rw [if_neg hv]
      have hnw : n ≠ getCell C r c := fun hh => hv (hh ▸ hvalid)
      rcases List.mem_cons.mp hmem with hh | hh
      · exact absurd hh.symm hnw
      · exact ih hh

theorem solveAux_complete : ∀ fuel b C, WF b → countEmpty b < fuel → Solves C b →
    (solveAux fuel b).1 = true := by
  intro fuel
  induction fuel with
  | zero => intro b C _ hce _; omega
  | succ m ih =>
    intro b C hWF hce hS
    unfold solveAux
    cases hfe : findEmpty b with
    | none => rfl
    | some rc =>
      obtain ⟨hr, hc, h0⟩ := findEmpty_some_char b rc.1 rc.2 (by rw [hfe])
      have hrange := WF_getCell_in_range b hWF rc.1 rc.2 hr hc
      have hw0 : getCell C rc.1 rc.2 ≠ 0 := hS.2.2.1 rc.1 hr rc.2 hc
      have hwle : getCell C rc.1 rc.2 ≤ 9 := WF_cell_le C hS.1 rc.1 rc.2 hr hc
      have hwmem : getCell C rc.1 rc.2 ∈ nums1to9 := by
        unfold nums1to9
        have h1 : 1 ≤ getCell C rc.1 rc.2 := Nat.one_le_iff_ne_zero.mpr hw0
        interval_cases (getCell C rc.1 rc.2) <;> simp
      have hvalid := isValid_of_solves b C rc.1 rc.2 hr hc hS
      have hceq := countEmpty_place b rc.1 rc.2 (getCell C rc.1 rc.2)
        h0 hw0 hrange.1 hrange.2
      have hWF1 := WF_setCell b hWF rc.1 rc.2 (getCell C rc.1 rc.2) hwle
      have hS1 : Solves C (setCell b rc.1 rc.2 (getCell C rc.1 rc.2)) :=
        ⟨hS.1, Extends_place_solution b C hWF rc.1 rc.2 hr hc hS.2.1,
          hS.2.2.1, hS.2.2.2⟩
      have hrecC := ih (setCell b rc.1 rc.2 (getCell C rc.1 rc.2)) C hWF1
        (by omega) hS1
      exact tryNums_complete (solveAux m) (solveAux_restore m) rc.1 rc.2 b C
        h0 hvalid hrecC nums1to9 hwmem

/-! ### Fuel irrelevance -/

theorem tryNums_congr (rec1 rec2 : Board → Bool × Board)
    (hrecr : ∀ bb, (rec1 bb).1 = false → (rec1 bb).2 = bb)
    (r c : ℕ) (b : Board) (h0 : getCell b r c = 0) :
    ∀ nums, (∀ n ∈ nums, rec1 (setCell b r c n) = rec2 (setCell b r c n)) →
    tryNums rec1 r c nums b = tryNums rec2 r c nums b := by
  intro nums
  induction nums with
  | nil => intro _; rfl
  | cons n rest ih =>
    intro hagree
    have he := hagree n (by simp)
    unfold tryNums
    by_cases hv : isValid b r c n = true
    · rw [if_pos hv, if_pos hv, ← he]
      by_cases hp : (rec1 (setCell b r c n)).1 = true
      · rw [if_pos hp, if_pos hp]
      · have hp' : (rec1 (setCell b r c n)).1 = false := by simpa using hp
        rw [if_neg hp, if_neg hp]
        rw [hrecr _ hp', setCell_setCell, setCell_zero_of_zero b r c h0]
        exact ih fun m hm => hagree m (List.mem_cons_of_mem n hm)
    · rw [if_neg hv, if_neg hv]
      exact ih fun m hm => hagree m (List.mem_cons_of_mem n hm)

theorem solveAux_fuel_irrelevant : ∀ f1 f2 b, WF b →
    countEmpty b < f1 → countEmpty b < f2 → solveAux f1 b = solveAux f2 b := by
  intro f1
  induction f1 with
  | zero => intro f2 b _ h _; omega
  | succ m ih =>
    intro f2 b hWF h1 h2
    cases f2 with
    | zero => omega
    | succ m2 =>
      unfold solveAux
      cases hfe : findEmpty b with
      | none => rfl
      | some rc =>
        obtain ⟨hr, hc, h0⟩ := findEmpty_some_char b rc.1 rc.2 (by rw [hfe])
        have hrange := WF_getCell_in_range b hWF rc.1 rc.2 hr hc
        apply tryNums_congr (solveAux m) (solveAux m2) (solveAux_restore m)
          rc.1 rc.2 b h0
        intro n hn
        have hn' : n ≠ 0 ∧ n ≤ 9 := by
          unfold nums1to9 at hn
          simp at hn
          omega
        have hceq := countEmpty_place b rc.1 rc.2 n h0 hn'.1 hrange.1 hrange.2
        exact ih m2 (setCell b rc.1 rc.2 n)
          (WF_setCell b hWF rc.1 rc.2 n hn'.2) (by omega) (by omega)

/-! ### Board extensionality -/

theorem boardExt (b C : Board) (hb : b.length = 9) (hC : C.length = 9)
    (hrow : ∀ row ∈ b, row.length = 9) (hrowC : ∀ row ∈ C, row.length = 9)
    (h : ∀ r c, r < 9 → c < 9 → getCell b r c = getCell C r c) : b = C := by
  apply List.ext_getElem (by rw [hb, hC])
  intro i h1 h2
  apply List.ext_getElem
  · rw [hrow _ (List.getElem_mem h1), hrowC _ (List.getElem_mem h2)]
  intro j hj1 hj2
  have hi9 : i < 9 := hb ▸ h1
  have hj9 : j < 9 := by
    have := hrow _ (List.getElem_mem h1)
    omega
  have hcell := h i j hi9 hj9
  unfold getCell at hcell
  rw [getD_eq_getElem b i [] h1, getD_eq_getElem C i [] h2,
    getD_eq_getElem _ j 0 hj1, getD_eq_getElem _ j 0 hj2] at hcell
  exact hcell

/-! ### The randomized solver: restore on failure, full board on success -/

theorem tryNumsR_restore (rec : Board → ℕ → Bool × Board × ℕ)
    (hrec : ∀ bb ii, (rec bb ii).1 = false → (rec bb ii).2.1 = bb) (r c : ℕ) :
    ∀ (nums : List ℕ) (b : Board) (idx : ℕ), getCell b r c = 0 →
    (tryNumsR rec r c nums b idx).1 = false →
    (tryNumsR rec r c nums b idx).2.1 = b := by
  intro nums
  induction nums with
  | nil => intro b idx _ _; rfl
  | cons n rest ih =>
    intro b idx h0 hf
    unfold tryNumsR at hf ⊢
    by_cases hv : isValid b r c n = true
    · rw [if_pos hv] at hf ⊢
      by_cases hp : (rec (setCell b r c n) idx).1 = true
      · rw [if_pos hp] at hf
        rw [hp] at hf
        exact absurd hf (by simp)
      · have hp' : (rec (setCell b r c n) idx).1 = false := by simpa using hp
        rw [if_neg hp] at hf ⊢
        rw [hrec _ _ hp', setCell_setCell, setCell_zero_of_zero b r c h0] at hf ⊢
        exact ih b _ h0 hf
    · rw [if_neg hv] at hf ⊢
      exact ih b idx h0 hf

theorem solveRandomlyAux_restore (rng : ℕ → ℕ) : ∀ (fuel : ℕ) (b : Board) (idx : ℕ),
    (solveRandomlyAux rng fuel b idx).1 = false →
    (solveRandomlyAux rng fuel b idx).2.1 = b := by
  intro fuel
  induction fuel with
  | zero => intro b idx _; rfl
  | succ n ih =>
    intro b idx hf
    cases hfe : findEmpty b with
    | none =>
      have heq : solveRandomlyAux rng (n+1) b idx = (true, b, idx) := by
        unfold solveRandomlyAux
        rw [hfe]
      rw [heq] at hf
      exact absurd hf (by simp)
    | some rc =>
      have heq : solveRandomlyAux rng (n+1) b idx =
          tryNumsR (solveRandomlyAux rng n) rc.1 rc.2
            (shuffleArray rng nums1to9 idx).1 b (shuffleArray rng nums1to9 idx).2 := by
        unfold solveRandomlyAux
        rw [hfe]
      rw [heq] at hf ⊢
      have h0 := (findEmpty_some_char b rc.1 rc.2 (by rw [hfe])).2.2
      exact tryNumsR_restore (solveRandomlyAux rng n) (fun bb ii => ih bb ii)
        rc.1 rc.2 _ b _ h0 hf

theorem swapL_length (l : List ℕ) (a b : ℕ) : (swapL l a b).length = l.length := by
  unfold swapL
  rw [List.length_set, List.length_set]

theorem swapL_mem (l : List ℕ) (a b : ℕ) (ha : a < l.length) (hb : b < l.length) :
    ∀ x ∈ swapL l a b, x ∈ l := by
  intro x hx
  unfold swapL at hx
  rcases List.mem_or_eq_of_mem_set hx with hx1 | hx1
  · rcases List.mem_or_eq_of_mem_set hx1 with hx2 | hx2
    · exact hx2
    · subst hx2
      rw [getD_eq_getElem l b 0 hb]
      exact List.getElem_mem hb
  · subst hx1
    rw [getD_eq_getElem l a 0 ha]
    exact List.getElem_mem ha

theorem shuffleGo_mem (rng : ℕ → ℕ) : ∀ (i : ℕ) (l : List ℕ) (idx : ℕ),
    i < l.length → ∀ x ∈ (shuffleGo rng i l idx).1, x ∈ l := by
  intro i
  induction i with
  | zero => intro l idx _ x hx; exact hx
  | succ n ih =>
    intro l idx hi x hx
    unfold shuffleGo at hx
    have hlen : (swapL l (n+1) (rng idx % (n+2))).length = l.length :=
      swapL_length l _ _
    have hj : rng idx % (n+2) < l.length := by
      have := Nat.mod_lt (rng idx) (y := n+2) (by omega)
      omega
    exact swapL_mem l (n+1) _ hi hj x (ih _ (idx+1) (by omega) x hx)

theorem shuffleArray_nums_mem (rng : ℕ → ℕ) (idx : ℕ) :
    ∀ x ∈ (shuffleArray rng nums1to9 idx).1, x ≠ 0 ∧ x ≤ 9 := by
  intro x hx
  have hmem : x ∈ nums1to9 := by
    unfold shuffleArray at hx
    exact shuffleGo_mem rng _ nums1to9 idx (by decide) x hx
  unfold nums1to9 at hmem
  simp at hmem
  omega

theorem tryNumsR_sound (rec : Board → ℕ → Bool × Board × ℕ)
    (hrec : ∀ bb ii, WF bb → (rec bb ii).1 = true →
      WF (rec bb ii).2.1 ∧ findEmpty (rec bb ii).2.1 = none)
    (hrecr : ∀ bb ii, (rec bb ii).1 = false → (rec bb ii).2.1 = bb)
    (r c : ℕ) :
    ∀ nums b idx, (∀ n ∈ nums, n ≤ 9) → WF b → getCell b r c = 0 →
    (tryNumsR rec r c nums b idx).1 = true →
    WF (tryNumsR rec r c nums b idx).2.1 ∧
    findEmpty (tryNumsR rec r c nums b idx).2.1 = none := by
  intro nums
  induction nums with
  | nil => intro b idx _ _ _ hf; exact absurd hf (by simp [tryNumsR])
  | cons n rest ih =>
    intro b idx hnums hWF h0 hf
    have hn := hnums n (by simp)
    unfold tryNumsR at hf ⊢
    by_cases hv : isValid b r c n = true
    · rw [if_pos hv] at hf ⊢
      by_cases hp : (rec (setCell b r c n) idx).1 = true
      · rw [if_pos hp] at hf ⊢
        exact hrec _ _ (WF_setCell b hWF r c n hn) hp
      · have hp' : (rec (setCell b r c n) idx).1 = false := by simpa using hp
        rw [if_neg hp] at hf ⊢
        rw [hrecr _ _ hp', setCell_setCell, setCell_zero_of_zero b r c h0] at hf ⊢
        exact ih b _ (fun m hm => hnums m (List.mem_cons_of_mem n hm)) hWF h0 hf
    · rw [if_neg hv] at hf ⊢
      exact ih b idx (fun m hm => hnums m (List.mem_cons_of_mem n hm)) hWF h0 hf

theorem solveRandomlyAux_sound (rng : ℕ → ℕ) : ∀ (fuel : ℕ) (b : Board) (idx : ℕ),
    WF b → (solveRandomlyAux rng fuel b idx).1 = true →
    WF (solveRandomlyAux rng fuel b idx).2.1 ∧
    findEmpty (solveRandomlyAux rng fuel b idx).2.1 = none := by
  intro fuel
  induction fuel with
  | zero => intro b idx _ hf; exact absurd hf (by simp [solveRandomlyAux])
  | succ n ih =>
    intro b idx hWF hf
    cases hfe : findEmpty b with
    | none =>
      have heq : solveRandomlyAux rng (n+1) b idx = (true, b, idx) := by
        unfold solveRandomlyAux
        rw [hfe]
      rw [heq]
      exact ⟨hWF, hfe⟩
    | some rc =>
      have heq : solveRandomlyAux rng (n+1) b idx =
          tryNumsR (solveRandomlyAux rng n) rc.1 rc.2
            (shuffleArray rng nums1to9 idx).1 b (shuffleArray rng nums1to9 idx).2 := by
        unfold solveRandomlyAux
        rw [hfe]
      rw [heq] at hf ⊢
      have h0 := (findEmpty_some_char b rc.1 rc.2 (by rw [hfe])).2.2
      exact tryNumsR_sound (solveRandomlyAux rng n) (fun bb ii => ih bb ii)
        (fun bb ii => solveRandomlyAux_restore rng n bb ii) rc.1 rc.2
        _ b _
        (fun m hm => (shuffleArray_nums_mem rng idx m hm).2) hWF h0 hf

/-! ### The removal loop -/

theorem removeLoop_count (rng : ℕ → ℕ) (target : ℕ) :
    ∀ (fuel : ℕ) (b : Board) (idx removed : ℕ) (b' : Board) (idx' : ℕ),
    removed ≤ target →
    removeLoop rng (JsLookup.num target) fuel b idx removed = some (b', idx') →
    countNonzero b + removed = countNonzero b' + target := by
  intro fuel
  induction fuel with
  | zero =>
    intro b idx removed b' idx' hle h
    unfold removeLoop at h
    by_cases hlt : removed < target
    · rw [if_pos (by simp [jsLt, hlt])] at h
      exact Option.noConfusion h
    · rw [if_neg (by simp [jsLt]; omega)] at h
      injection h with h'
      have hb : b' = b := (congrArg Prod.fst h').symm
      subst hb
      omega
  | succ f ih =>
    intro b idx removed b' idx' hle h
    unfold removeLoop at h
    by_cases hlt : removed < target
    · rw [if_pos (by simp [jsLt, hlt])] at h
      by_cases hcell : getCell b (rng idx % 9) (rng (idx+1) % 9) ≠ 0
      · rw [if_pos hcell] at h
        have hrem := countNonzero_remove b _ _ hcell
        have := ih _ (idx+2) (removed+1) b' idx' (by omega) h
        omega
      · rw [if_neg hcell] at h
        exact ih b (idx+2) removed b' idx' hle h
    · rw [if_neg (by simp [jsLt]; omega)] at h
      injection h with h'
      have hb : b' = b := (congrArg Prod.fst h').symm
      subst hb
      omega

theorem removeLoop_stuck (rng : ℕ → ℕ) (t : JsLookup)
    (ht : ∀ a, jsLt a t = false) :
    ∀ (fuel : ℕ) (b : Board) (idx removed : ℕ),
    removeLoop rng t fuel b idx removed = some (b, idx) := by
  intro fuel b idx removed
  cases fuel <;> simp [removeLoop, ht]

/-! ### `generate` analysis -/

theorem createEmptyBoard_WF : WF createEmptyBoard := by decide

theorem countNonzero_createEmptyBoard : countNonzero createEmptyBoard = 0 := by decide

theorem generateV1_count (rng : ℕ → ℕ) (idx fuel : ℕ) (d : String) (k : ℕ)
    (hd : difficultyLookup d = JsLookup.num k) (hk : 0 < k)
    (st : SolverState) (ret : Board)
    (h : generateV1 rng idx fuel d = some (st, ret)) :
    countNonzero ret = 81 - k ∧ st.board = ret ∧ st.initialBoard = ret := by
  unfold generateV1 at h
  rw [hd] at h
  cases hrl : removeLoop rng (JsLookup.num k) fuel
      (solveRandomlyAux rng fuel createEmptyBoard idx).2.1
      (solveRandomlyAux rng fuel createEmptyBoard idx).2.2 0 with
  | none => rw [hrl] at h; exact Option.noConfusion h
  | some p =>
    rw [hrl] at h
    injection h with h'
    have hst : st = ⟨p.1, p.1⟩ := (congrArg Prod.fst h').symm
    have hret : ret = p.1 := (congrArg Prod.snd h').symm
    have hcount := removeLoop_count rng k fuel
      (solveRandomlyAux rng fuel createEmptyBoard idx).2.1
      (solveRandomlyAux rng fuel createEmptyBoard idx).2.2 0 p.1 p.2
      (Nat.zero_le k) hrl
    cases hok : (solveRandomlyAux rng fuel createEmptyBoard idx).1 with
    | false =>
      have hres := solveRandomlyAux_restore rng fuel createEmptyBoard idx hok
      rw [hres, countNonzero_createEmptyBoard] at hcount
      omega
    | true =>
      obtain ⟨hWFs, hfes⟩ :=
        solveRandomlyAux_sound rng fuel createEmptyBoard idx createEmptyBoard_WF hok
      have h81 : countNonzero (solveRandomlyAux rng fuel createEmptyBoard idx).2.1 = 81 :=
        countNonzero_eq_81 _ hWFs (findEmpty_none_char _ hfes)
      rw [h81] at hcount
      refine ⟨?_, ?_, ?_⟩
      · rw [hret]; omega
      · rw [hst, hret]
      · rw [hst, hret]

theorem generateV2_eq_generateV1_of_known (rng : ℕ → ℕ) (idx fuel : ℕ) (d : String)
    (k : ℕ) (hd : difficultyLookup d = JsLookup.num k) :
    generateV2 rng idx fuel d = generateV1 rng idx fuel d := by
  unfold generateV1 generateV2
  rw [hd]
  rfl

theorem generateV1_no_removal (rng : ℕ → ℕ) (idx fuel : ℕ) (d : String)
    (ht : ∀ a, jsLt a (difficultyLookup d) = false) :
    generateV1 rng idx fuel d =
      some (⟨(solveRandomlyAux rng fuel createEmptyBoard idx).2.1,
             (solveRandomlyAux rng fuel createEmptyBoard idx).2.1⟩,
            (solveRandomlyAux rng fuel createEmptyBoard idx).2.1) := by
  unfold generateV1
  rw [removeLoop_stuck rng _ ht]

theorem generateV2_no_removal (rng : ℕ → ℕ) (idx fuel : ℕ) (d : String)
    (ht : ∀ a, jsLt a (jsOrMedium (difficultyLookup d)) = false) :
    generateV2 rng idx fuel d =
      some (⟨(solveRandomlyAux rng fuel createEmptyBoard idx).2.1,
             (solveRandomlyAux rng fuel createEmptyBoard idx).2.1⟩,
            (solveRandomlyAux rng fuel createEmptyBoard idx).2.1) := by
  unfold generateV2
  rw [removeLoop_stuck rng _ ht]

/-! ### Solvability transfer and hint machinery -/

theorem copyBoard_eq (b : Board) : copyBoard b = b := by
  unfold copyBoard
  simp

theorem noConf_of_solves (b C : Board) (hS : Solves C b) : noConf b := by
  obtain ⟨hWFC, hExt, hFull, hVal⟩ := hS
  have hncC := (validateBoard_iff_noConf C).mp hVal
  intro i hi j hj h0
  rw [isValid_setZero_iff]
  have hCij : getCell C i j = getCell b i j := hExt i hi j hj h0
  have hCne : getCell C i j ≠ 0 := by rw [hCij]; exact h0
  obtain ⟨h1, h2, h3⟩ :=
    (isValid_setZero_iff C i j (getCell C i j)).mp (hncC i hi j hj hCne)
  refine ⟨?_, ?_, ?_⟩
  · intro x hx hne hEq
    have hbx : getCell b i x ≠ 0 := by rw [hEq]; exact h0
    exact h1 x hx hne (by rw [hExt i hi x hx hbx, hEq, ← hCij])
  · intro x hx hne hEq
    have hbx : getCell b x j ≠ 0 := by rw [hEq]; exact h0
    exact h2 x hx hne (by rw [hExt x hx j hj hbx, hEq, ← hCij])
  · intro a ha d hd hne hEq
    have hi9 : i / 3 * 3 + a < 9 := by omega
    have hj9 : j / 3 * 3 + d < 9 := by omega
    have hbx : getCell b (i / 3 * 3 + a) (j / 3 * 3 + d) ≠ 0 := by
      rw [hEq]; exact h0
    exact h3 a ha d hd hne (by rw [hExt _ hi9 _ hj9 hbx, hEq, ← hCij])

/-- On a solvable well-formed conflict-free board the solver succeeds and its
result is a legal completion. -/
theorem solve_success_of_solves (b : Board) (hWF : WF b) (hsolv : ∃ C, Solves C b) :
    (solve b).1 = true ∧ Solves (solve b).2 b := by
  obtain ⟨C, hS⟩ := hsolv
  have hnc : noConf b := noConf_of_solves b C hS
  have hce : countEmpty b < 82 := by
    have := countEmpty_le_81 b hWF
    omega
  have htrue : (solve b).1 = true := solveAux_complete 82 b C hWF hce hS
  obtain ⟨w1, w2, w3, w4⟩ := solveAux_sound 82 b hWF hnc htrue
  exact ⟨htrue, w1, w3, fun r hr c hc => findEmpty_none_char _ w4 r c hr hc,
    (validateBoard_iff_noConf _).mpr w2⟩

/-- Conversely, when no legal completion exists and the board is well-formed
and conflict-free, the solver fails. -/
theorem solve_false_of_no_solution (b : Board) (hWF : WF b)
    (hvb : validateBoard b = true) (hnosol : ¬ ∃ C, Solves C b) :
    (solve b).1 = false := by
  cases hres : (solve b).1 with
  | false => rfl
  | true =>
    exfalso
    have hnc := (validateBoard_iff_noConf b).mp hvb
    obtain ⟨w1, w2, w3, w4⟩ := solveAux_sound 82 b hWF hnc hres
    exact hnosol ⟨(solve b).2, w1, w3, fun r hr c hc => findEmpty_none_char _ w4 r c hr hc,
      (validateBoard_iff_noConf _).mpr w2⟩

theorem unsolvableBoard_no_solution : ¬ ∃ C, Solves C unsolvableBoard := by
  rintro ⟨C, hWFC, hExt, hFull, hVal⟩
  have hnc := (validateBoard_iff_noConf C).mp hVal
  have hvne : getCell C 0 8 ≠ 0 := hFull 0 (by omega) 8 (by omega)
  have hv9 : getCell C 0 8 ≤ 9 := WF_cell_le C hWFC 0 8 (by omega) (by omega)
  have hvlt : 1 ≤ getCell C 0 8 := Nat.one_le_iff_ne_zero.mpr hvne
  obtain ⟨h1, h2, _⟩ :=
    (isValid_setZero_iff C 0 8 (getCell C 0 8)).mp (hnc 0 (by omega) 8 (by omega) hvne)
  have hcol : getCell C 1 8 = 9 :=
    (hExt 1 (by omega) 8 (by omega) (by decide)).trans (by decide)
  have hrow : ∀ x, x < 8 → getCell C 0 x = x + 1 := by
    intro x hx
    have hux : getCell unsolvableBoard 0 x = x + 1 := by
      interval_cases x <;> decide
    exact (hExt 0 (by omega) x (by omega) (by rw [hux]; omega)).trans hux
  by_cases hv8 : getCell C 0 8 ≤ 8
  · exact h1 (getCell C 0 8 - 1) (by omega) (by omega)
      ((hrow (getCell C 0 8 - 1) (by omega)).trans (by omega))
  · have hveq : getCell C 0 8 = 9 := by omega
    exact h2 1 (by omega) (by omega) (hcol.trans hveq.symm)

theorem badHintBoard_no_solution : ¬ ∃ C, Solves C badHintBoard := by
  rintro ⟨C, hWFC, hExt, hFull, hVal⟩
  have hnc := (validateBoard_iff_noConf C).mp hVal
  have h00 : getCell C 0 0 = 2 :=
    (hExt 0 (by omega) 0 (by omega) (by decide)).trans (by decide)
  have h01 : getCell C 0 1 = 2 :=
    (hExt 0 (by omega) 1 (by omega) (by decide)).trans (by decide)
  have hne : getCell C 0 0 ≠ 0 := by rw [h00]; omega
  obtain ⟨h1, _, _⟩ :=
    (isValid_setZero_iff C 0 0 (getCell C 0 0)).mp (hnc 0 (by omega) 0 (by omega) hne)
  exact h1 1 (by omega) (by omega) (h01.trans h00.symm)

theorem findEmpty_eq_none_of_full (b : Board)
    (h : ∀ r c, r < 9 → c < 9 → getCell b r c ≠ 0) : findEmpty b = none := by
  cases hfe : findEmpty b with
  | none => rfl
  | some rc =>
    obtain ⟨hr, hc, h0⟩ := findEmpty_some_char b rc.1 rc.2 (by rw [hfe])
    exact absurd h0 (h rc.1 rc.2 hr hc)

theorem tryNums_unique_value (rec : Board → Bool × Board) (r c v : ℕ) (b : Board)
    (hrec : rec (setCell b r c v) = (true, setCell b r c v)) :
    ∀ nums, v ∈ nums → (∀ n ∈ nums, isValid b r c n = true ↔ n = v) →
    tryNums rec r c nums b = (true, setCell b r c v) := by
  intro nums
  induction nums with
  | nil => intro h _; exact absurd h (List.not_mem_nil v)
  | cons n rest ih =>
    intro hmem hval
    unfold tryNums
    by_cases hnv : n = v
    · subst hnv
      have hv : isValid b r c n = true := (hval n (by simp)).mpr rfl
      rw [if_pos hv, hrec]
      simp
    · have hnval : isValid b r c n = false := by
        cases hiv : isValid b r c n
        · rfl
        · exact absurd ((hval n (by simp)).mp hiv) hnv
      rw [if_neg (by simp [hnval])]
      have hmem' : v ∈ rest := by
        rcases List.mem_cons.mp hmem with h | h
        · exact absurd h.symm hnv
        · exact h
      exact ih hmem' (fun m hm => hval m (List.mem_cons_of_mem n hm))

end Sudoku

/-! ## Claim theorems -/

namespace Sudoku

/-- C2: for every 9×9 board `B` and cell `(r,c)` with `B[r][c] = 0` and value
`v` in 1–9, `isValid B r c v` returns `false` iff `v` already appears in row
`r` at some column other than `c`, or in column `c` at some row other than
`r`, or in the 3×3 box containing `(r,c)` at some cell other than `(r,c)`. -/
theorem C2_isValid_false_iff (B : Board) (r c v : ℕ) (hWF : WF B)
    (hr : r < 9) (hc : c < 9) (h0 : getCell B r c = 0)
    (hv1 : 1 ≤ v) (hv9 : v ≤ 9) :
    isValid B r c v = false ↔
      ((∃ x, x < 9 ∧ x ≠ c ∧ getCell B r x = v) ∨
       (∃ x, x < 9 ∧ x ≠ r ∧ getCell B x c = v) ∨
       (∃ i, i < 3 ∧ ∃ j, j < 3 ∧
          ¬(r / 3 * 3 + i = r ∧ c / 3 * 3 + j = c) ∧
          getCell B (r / 3 * 3 + i) (c / 3 * 3 + j) = v)) :=
  isValid_eq_false_iff B r c v

theorem C2_witness :
    WF nearlyFullBoard ∧ getCell nearlyFullBoard 8 8 = 0 ∧
    (isValid nearlyFullBoard 8 8 1 = false ↔
      ((∃ x, x < 9 ∧ x ≠ 8 ∧ getCell nearlyFullBoard 8 x = 1) ∨
       (∃ x, x < 9 ∧ x ≠ 8 ∧ getCell nearlyFullBoard x 8 = 1) ∨
       (∃ i, i < 3 ∧ ∃ j, j < 3 ∧
          ¬(8 / 3 * 3 + i = 8 ∧ 8 / 3 * 3 + j = 8) ∧
          getCell nearlyFullBoard (8 / 3 * 3 + i) (8 / 3 * 3 + j) = 1))) :=
  ⟨by decide, by decide,
    C2_isValid_false_iff nearlyFullBoard 8 8 1 (by decide) (by decide) (by decide)
      (by decide) (by decide) (by decide)⟩

/-- C10: `isValid` never reads the queried cell itself, so its verdict on a
filled cell `(r,c)` holding `v` is unchanged when that cell is temporarily
zeroed — the zero-and-restore done by `detectConflicts` / `validateBoard`
cannot change the outcome. -/
theorem C10_isValid_ignores_own_cell (b : Board) (hWF : WF b) (r c v : ℕ)
    (hr : r < 9) (hc : c < 9) (hval : getCell b r c = v) (hv : v ≠ 0) :
    isValid b r c v = isValid (setCell b r c 0) r c v := by
  rw [Bool.eq_iff_iff, isValid_iff, isValid_setZero_iff]

theorem C10_witness :
    WF canonicalBoard ∧ getCell canonicalBoard 0 0 = 1 ∧
    isValid canonicalBoard 0 0 1 = isValid (setCell canonicalBoard 0 0 0) 0 0 1 :=
  ⟨by decide, by decide,
    C10_isValid_ignores_own_cell canonicalBoard (by decide) 0 0 1 (by decide)
      (by decide) (by decide) (by decide)⟩

/-- C6: `validateBoard` returns `true` exactly when `detectConflicts` would
return the empty set. -/
theorem C6_validateBoard_iff_no_conflicts (b : Board) :
    validateBoard b = true ↔ (detectConflicts b).2 = [] := by
  rw [validateBoard_eq_all, detectConflicts_spec]
  simp only [List.all_eq_true, List.map_eq_nil, List.filter_eq_nil,
    Bool.not_eq_true', Bool.not_eq_true]
  constructor
  · intro h ij hmem
    rw [h ij hmem]
    simp
  · intro h ij hmem
    have := h ij hmem
    simpa using this

/-- C7: `detectConflicts` is side-effect-free and idempotent — the board it
leaves behind is the input board, and running it again on that board yields
the same conflict set. -/
theorem C7_detectConflicts_pure_idempotent (b : Board) :
    (detectConflicts b).1 = b ∧
    detectConflicts (detectConflicts b).1 = detectConflicts b := by
  have h1 : (detectConflicts b).1 = b := by rw [detectConflicts_spec]
  exact ⟨h1, by rw [h1]⟩

/-- C3: on every 9×9 board that admits a legal completion, `solve` returns
`true`, leaves no zero cells, preserves every originally nonzero cell, and
`validateBoard` holds on the result. -/
theorem C3_solve_solvable_success (b : Board) (hWF : WF b)
    (hsolv : ∃ C, Solves C b) :
    (solve b).1 = true ∧ Full (solve b).2 ∧ Extends b (solve b).2 ∧
    validateBoard (solve b).2 = true := by
  obtain ⟨htrue, hS⟩ := solve_success_of_solves b hWF hsolv
  exact ⟨htrue, hS.2.2.1, hS.2.1, hS.2.2.2⟩

theorem C3_witness :
    WF nearlyFullBoard ∧ Solves canonicalBoard nearlyFullBoard ∧
    ((solve nearlyFullBoard).1 = true ∧ Full (solve nearlyFullBoard).2 ∧
     Extends nearlyFullBoard (solve nearlyFullBoard).2 ∧
     validateBoard (solve nearlyFullBoard).2 = true) :=
  ⟨by decide, by decide,
    C3_solve_solvable_success nearlyFullBoard (by decide) ⟨canonicalBoard, by decide⟩⟩

/-- C4 counterexample: `badFullBoard` is a full board with a duplicated value,
so it admits no legal completion; yet `solve` returns `true` on it (the
scan finds no empty cell and the base case fires), contradicting the claim
that `solve` returns `false` on every board with no legal completion. -/
theorem C4_counterexample :
    (¬ ∃ C, Solves C badFullBoard) ∧ (solve badFullBoard).1 = true ∧
    (solve badFullBoard).2 = badFullBoard := by
  refine ⟨?_, by decide, by decide⟩
  rintro ⟨C, hWFC, hExt, hFull, hVal⟩
  have hWFb : WF badFullBoard := by decide
  have heq : C = badFullBoard := by
    apply boardExt C badFullBoard hWFC.1 hWFb.1 (fun row hrow => (hWFC.2 row hrow).1)
      (fun row hrow => (hWFb.2 row hrow).1)
    intro r c hr hc
    have hbne : getCell badFullBoard r c ≠ 0 :=
      (by decide : Full badFullBoard) r hr c hc
    exact hExt r hr c hc hbne
  rw [heq] at hVal
  exact absurd hVal (by decide)

/-- C4 amended: on every 9×9 board whose filled cells are mutually
conflict-free (`validateBoard` true) and which has no legal completion,
`solve` returns `false` and leaves the board cell-for-cell as it was;
moreover for every board, whenever `solve` returns `false` the board is
left unchanged. -/
theorem C4_amended_unsolvable_restores (b : Board) (hWF : WF b)
    (hvb : validateBoard b = true) (hnosol : ¬ ∃ C, Solves C b) :
    ((solve b).1 = false ∧ (solve b).2 = b) ∧
    (∀ b' : Board, (solve b').1 = false → (solve b').2 = b') := by
  have hfalse := solve_false_of_no_solution b hWF hvb hnosol
  exact ⟨⟨hfalse, solveAux_restore 82 b hfalse⟩,
    fun b' hf => solveAux_restore 82 b' hf⟩

theorem C4_witness :
    WF unsolvableBoard ∧ validateBoard unsolvableBoard = true ∧
    (solve unsolvableBoard).1 = false ∧ (solve unsolvableBoard).2 = unsolvableBoard := by
  have h := C4_amended_unsolvable_restores unsolvableBoard (by decide) (by decide)
    unsolvableBoard_no_solution
  exact ⟨by decide, by decide, h.1.1, h.2 unsolvableBoard h.1.1⟩

/-- C9: `solve` terminates on every 9×9 board — there are at most 81 empty
cells, each placement fills exactly one empty cell (the empty count drops by
exactly one per recursion level), and any fuel beyond the empty-cell count
gives the same result as `solve`'s fixed budget. -/
theorem C9_solve_terminates (b : Board) (hWF : WF b) :
    countEmpty b ≤ 81 ∧
    (∀ r c n, findEmpty b = some (r, c) → n ≠ 0 →
      countEmpty (setCell b r c n) + 1 = countEmpty b) ∧
    (∀ fuel, countEmpty b < fuel → solveAux fuel b = solve b) := by
  refine ⟨countEmpty_le_81 b hWF, ?_, ?_⟩
  · intro r c n hfe hn
    obtain ⟨hr, hc, h0⟩ := findEmpty_some_char b r c hfe
    have hrange := WF_getCell_in_range b hWF r c hr hc
    exact countEmpty_place b r c n h0 hn hrange.1 hrange.2
  · intro fuel hfuel
    unfold solve
    exact solveAux_fuel_irrelevant fuel 82 b hWF hfuel
      (by have := countEmpty_le_81 b hWF; omega)

theorem C9_witness :
    WF nearlyFullBoard ∧ countEmpty nearlyFullBoard < 5 ∧
    solveAux 5 nearlyFullBoard = solve nearlyFullBoard :=
  ⟨by decide, by decide,
    (C9_solve_terminates nearlyFullBoard (by decide)).2.2 5 (by decide)⟩

set_option maxRecDepth 1000000 in
/-- C1 counterexample: in the first revision of `generate`, an unrecognized
difficulty string gives an `undefined` removal count, the removal loop exits
immediately, and the returned board keeps all 81 solved cells — it does not
behave like `generate("medium")`, which removes 45 cells. -/
theorem C1_counterexample :
    generateV1 wrng 0 100 "bogus" ≠ generateV1 wrng 0 100 "medium" ∧
    (generateV1 wrng 0 100 "bogus").map (fun p => countNonzero p.2) = some 81 := by
  refine ⟨?_, by decide⟩
  decide

/-- C1 amended: for every difficulty string outside {easy, medium, hard},
the first revision of `generate` does not error but removes no cell at all —
the comparison of `removed` with the looked-up non-numeric value is false,
so the fully solved board is stored and returned unchanged; the second
revision (`DIFFICULTY_CONFIG` with the `|| medium` fallback) behaves
identically to `generate("medium")` for strings that are not inherited
`Object.prototype` member names, while for inherited names such as
`"constructor"` the truthy inherited value skips the fallback and the
removal loop again removes no cell. -/
theorem C1_amended_unknown_difficulty (rng : ℕ → ℕ) (idx fuel : ℕ) (d : String)
    (hd : d ≠ "easy" ∧ d ≠ "medium" ∧ d ≠ "hard") :
    generateV1 rng idx fuel d =
      some (⟨(solveRandomlyAux rng fuel createEmptyBoard idx).2.1,
             (solveRandomlyAux rng fuel createEmptyBoard idx).2.1⟩,
            (solveRandomlyAux rng fuel createEmptyBoard idx).2.1) ∧
    (d ∉ protoKeys → generateV2 rng idx fuel d = generateV2 rng idx fuel "medium") ∧
    (d ∈ protoKeys → generateV2 rng idx fuel d =
      some (⟨(solveRandomlyAux rng fuel createEmptyBoard idx).2.1,
             (solveRandomlyAux rng fuel createEmptyBoard idx).2.1⟩,
            (solveRandomlyAux rng fuel createEmptyBoard idx).2.1)) := by
  have hlookup : difficultyLookup d =
      (if d ∈ protoKeys then JsLookup.inherited else JsLookup.missing) := by
    unfold difficultyLookup
    rw [if_neg hd.1, if_neg hd.2.1, if_neg hd.2.2]
  refine ⟨?_, ?_, ?_⟩
  · apply generateV1_no_removal
    intro a
    rw [hlookup]
    by_cases hp : d ∈ protoKeys
    · rw [if_pos hp]; rfl
    · rw [if_neg hp]; rfl
  · intro hp
    have h2 : difficultyLookup d = JsLookup.missing := by rw [hlookup, if_neg hp]
    unfold generateV2
    rw [h2]
    rfl
  · intro hp
    have h2 : difficultyLookup d = JsLookup.inherited := by rw [hlookup, if_pos hp]
    apply generateV2_no_removal
    intro a
    rw [h2]
    rfl

theorem C1_witness :
    ("bogus" ≠ "easy" ∧ "bogus" ≠ "medium" ∧ "bogus" ≠ "hard") ∧
    "bogus" ∉ protoKeys ∧
    generateV1 zrng 0 0 "bogus" =
      some (⟨(solveRandomlyAux zrng 0 createEmptyBoard 0).2.1,
             (solveRandomlyAux zrng 0 createEmptyBoard 0).2.1⟩,
            (solveRandomlyAux zrng 0 createEmptyBoard 0).2.1) ∧
    generateV2 zrng 0 0 "bogus" = generateV2 zrng 0 0 "medium" := by
  have h := C1_amended_unknown_difficulty zrng 0 0 "bogus" (by decide)
  exact ⟨by decide, by decide, h.1, h.2.1 (by decide)⟩

/-- C5: whenever `generate` (first revision, the cited symbol) completes for
`"easy"` / `"medium"` / `"hard"`, the returned board has exactly 81 − 35,
81 − 45, 81 − 55 nonzero cells respectively, and the stored board and
initial board both equal the returned puzzle cell-for-cell. -/
theorem C5_generate_difficulty_counts (rng : ℕ → ℕ) (idx fuel : ℕ) (d : String)
    (k : ℕ)
    (hd : (d = "easy" ∧ k = 35) ∨ (d = "medium" ∧ k = 45) ∨ (d = "hard" ∧ k = 55))
    (st : SolverState) (ret : Board)
    (h : generateV1 rng idx fuel d = some (st, ret)) :
    countNonzero ret = 81 - k ∧ st.initialBoard = ret ∧ st.board = ret := by
  have hlk : difficultyLookup d = JsLookup.num k ∧ 0 < k := by
    rcases hd with ⟨rfl, rfl⟩ | ⟨rfl, rfl⟩ | ⟨rfl, rfl⟩ <;> exact ⟨by decide, by omega⟩
  obtain ⟨hcount, hb, hi⟩ := generateV1_count rng idx fuel d k hlk.1 hlk.2 st ret h
  exact ⟨hcount, hi, hb⟩

set_option maxRecDepth 1000000 in
theorem C5_witness :
    generateV1 wrng 0 100 "easy" = some (⟨easyPuzzle, easyPuzzle⟩, easyPuzzle) ∧
    countNonzero easyPuzzle = 81 - 35 ∧
    (SolverState.mk easyPuzzle easyPuzzle).initialBoard = easyPuzzle := by
  have hgen : generateV1 wrng 0 100 "easy" =
      some (⟨easyPuzzle, easyPuzzle⟩, easyPuzzle) := by decide
  have hres := C5_generate_difficulty_counts wrng 0 100 "easy" 35
    (Or.inl ⟨rfl, rfl⟩) ⟨easyPuzzle, easyPuzzle⟩ easyPuzzle hgen
  exact ⟨hgen, hres.1, hres.2.1⟩

/-- C8 counterexample: `badHintBoard` has an empty cell and no legal
completion (row 0 holds two 2s), yet `getHint` returns a hint rather than
`null` — the solver happily fills the empty cell because it never re-checks
the pre-existing conflict. -/
theorem C8_counterexample :
    getHint zrng 0 badHintBoard = some (8, 8, 8) ∧
    getCell badHintBoard 8 8 = 0 ∧
    ¬ ∃ C, Solves C badHintBoard :=
  ⟨by decide, by decide, badHintBoard_no_solution⟩

/-- C8 amended: `getHint` (a pure function of a board copy in this model)
returns `none` on a board with no empty cell; on a board whose filled cells
are conflict-free it returns `none` when no legal completion exists, and
otherwise returns a triple `(r, c, v)` where `(r,c)` is an empty cell of the
input and `v` is that cell's value in some legal completion; in particular,
with exactly one empty cell whose only legal value is `v` at `(r,c)` it
returns `(r, c, v)`. -/
theorem C8_amended_getHint (rng : ℕ → ℕ) (idx : ℕ) (b : Board) :
    (Full b → getHint rng idx b = none) ∧
    (WF b → validateBoard b = true → (¬ ∃ C, Solves C b) →
      getHint rng idx b = none) ∧
    (WF b → validateBoard b = true → (∃ C, Solves C b) → findAllEmpty b ≠ [] →
      ∃ r c v, getHint rng idx b = some (r, c, v) ∧ r < 9 ∧ c < 9 ∧
        getCell b r c = 0 ∧ ∃ C, Solves C b ∧ getCell C r c = v) ∧
    (∀ r c v, WF b → findAllEmpty b = [(r, c)] → 1 ≤ v → v ≤ 9 →
      (∀ n, 1 ≤ n → n ≤ 9 → (isValid b r c n = true ↔ n = v)) →
      getHint rng idx b = some (r, c, v)) := by
  refine ⟨?_, ?_, ?_, ?_⟩
  · intro hFull
    have hnil : findAllEmpty b = [] :=
      (findAllEmpty_eq_nil b).mpr (fun r c hr hc => hFull r hr c hc)
    unfold getHint
    rw [hnil]
    rfl
  · intro hWF hvb hnosol
    unfold getHint
    by_cases hlen : (findAllEmpty b).length = 0
    · rw [if_pos hlen]
    · rw [if_neg hlen, copyBoard_eq]
      rw [solve_false_of_no_solution b hWF hvb hnosol]
      simp
  · intro hWF hvb hsolv hne
    obtain ⟨htrue, hS⟩ := solve_success_of_solves b hWF hsolv
    have hlen : (findAllEmpty b).length ≠ 0 :=
      fun h => hne (List.eq_nil_of_length_eq_zero h)
    have hk : rng idx % (findAllEmpty b).length < (findAllEmpty b).length :=
      Nat.mod_lt _ (Nat.pos_of_ne_zero hlen)
    have hmem : (findAllEmpty b).getD (rng idx % (findAllEmpty b).length) (0, 0)
        ∈ findAllEmpty b := by
      rw [getD_eq_getElem _ _ (0, 0) hk]
      exact List.getElem_mem hk
    obtain ⟨hr, hc, h0⟩ := (mem_findAllEmpty b _).mp hmem
    refine ⟨_, _, _, ?_, hr, hc, h0, (solve b).2, hS, rfl⟩
    unfold getHint
    rw [if_neg hlen, copyBoard_eq, if_pos htrue]
  · intro r c v hWF heq hv1 hv9 hvuniq
    have hrc_mem : (r, c) ∈ findAllEmpty b := by
      rw [heq]
      exact List.mem_singleton.mpr rfl
    obtain ⟨hr, hc, h0⟩ := (mem_findAllEmpty b (r, c)).mp hrc_mem
    have hrange := WF_getCell_in_range b hWF r c hr hc
    have hfeq : findEmpty b = some (r, c) := by
      cases hfe : findEmpty b with
      | none => exact absurd h0 (findEmpty_none_char b hfe r c hr hc)
      | some rc' =>
        obtain ⟨hr', hc', h0'⟩ := findEmpty_some_char b rc'.1 rc'.2 (by rw [hfe])
        have hmem' : (rc'.1, rc'.2) ∈ findAllEmpty b :=
          (mem_findAllEmpty _ _).mpr ⟨hr', hc', h0'⟩
        rw [heq] at hmem'
        have heq' := List.mem_singleton.mp hmem'
        rw [← heq']
    have hb1full : ∀ i j, i < 9 → j < 9 → getCell (setCell b r c v) i j ≠ 0 := by
      intro i j hi hj
      by_cases hij : i = r ∧ j = c
      · rw [hij.1, hij.2, getCell_setCell_self b r c v hrange.1 hrange.2]
        omega
      · have hget : getCell (setCell b r c v) i j = getCell b i j := by
          apply getCell_setCell_ne
          rcases not_and_or.mp hij with h | h
          · exact Or.inl (fun hh => h hh.symm)
          · exact Or.inr (fun hh => h hh.symm)
        rw [hget]
        intro h0'
        have hmem2 : (i, j) ∈ findAllEmpty b :=
          (mem_findAllEmpty b (i, j)).mpr ⟨hi, hj, h0'⟩
        rw [heq] at hmem2
        have := List.mem_singleton.mp hmem2
        have hieq : i = r := congrArg Prod.fst this
        have hjeq : j = c := congrArg Prod.snd this
        exact hij ⟨hieq, hjeq⟩
    have hfe1 : findEmpty (setCell b r c v) = none :=
      findEmpty_eq_none_of_full _ hb1full
    have hrec : solveAux 81 (setCell b r c v) = (true, setCell b r c v) := by
      rw [show (81 : ℕ) = 80 + 1 from rfl]
      unfold solveAux
      rw [hfe1]
    have hvmem : v ∈ nums1to9 := by
      unfold nums1to9
      simp
      omega
    have hsolve : solve b = (true, setCell b r c v) := by
      unfold solve
      rw [show (82 : ℕ) = 81 + 1 from rfl]
      unfold solveAux
      rw [hfeq]
      exact tryNums_unique_value (solveAux 81) r c v b hrec nums1to9 hvmem
        (fun n hn => hvuniq n
          (by unfold nums1to9 at hn; simp at hn; omega)
          (by unfold nums1to9 at hn; simp at hn; omega))
    unfold getHint
    rw [heq, copyBoard_eq, hsolve]
    simp [Nat.mod_one, getCell_setCell_self b r c v hrange.1 hrange.2]

theorem C8_witness :
    WF nearlyFullBoard ∧ findAllEmpty nearlyFullBoard = [(8, 8)] ∧
    getHint zrng 0 nearlyFullBoard = some (8, 8, 8) :=
  ⟨by decide, by decide,
    (C8_amended_getHint zrng 0 nearlyFullBoard).2.2.2 8 8 8 (by decide) (by decide)
      (by decide) (by decide) (by decide)⟩

end Sudoku
